import Mathlib

/-!
Verification development for the `sync-service` repository
(`internal/sync/sync.go`, `internal/sync/report.go`).

The engine is embedded shallowly:

* Relative paths are lists of name components (`RPath`).  The source and
  target directory trees are association lists from relative paths to
  nodes (`DirTree`), listed in the (deterministic, implementation-defined)
  order in which `filepath.WalkDir` yields them; the root itself is not
  listed, matching the `path == opt.Source` / `path == opt.Target` skips
  in `Sync`.  The tree is a flat map: obstruction of a child path by a
  non-directory parent is not modelled (WalkDir yields every ancestor
  directory before its children, so in real trees the parent directories
  are created by their own walk entries before any child is written).
* Machine file metadata becomes `File` (byte content as `List Nat`,
  modification time as nanoseconds since Go's zero time, permission
  bits, the `Mode().IsRegular()` flag).  `os.FileInfo.Size()` of a
  regular file is its byte length.
* All fallible OS calls are driven by an explicit fault oracle
  (`Faults`): every `error` that the Go code can receive from the OS is
  an injectable fault, and failures that are intrinsic to the modelled
  state (renaming a file onto an existing directory, `O_CREATE` on an
  existing directory) fail without injection, as they do on a real
  filesystem.
* `Sync` additionally records the absolute path of every mutating
  filesystem call it attempts (directory creation, temp-file creation,
  timestamp set / rename / remove target), deduplicated per call site,
  in the `muts` trace; reads are not traced.
-/

abbrev Err := String

abbrev RPath := List String

/-- Metadata-plus-content snapshot of one file, as the walk sees it. -/
structure File where
  content : List Nat
  modTimeNs : Int
  perm : Nat
  regular : Bool
deriving Repr, DecidableEq

/-- One entry of a directory tree. -/
inductive Node where
  | dir : Node
  | file : File → Node
deriving Repr, DecidableEq

/-- A directory tree, keyed by relative path, in walk order. -/
abbrev DirTree := List (RPath × Node)

/-- Binding of a relative path in a tree (first match). -/
def lookupF : DirTree → RPath → Option Node
  | [], _ => none
  | (q, n) :: rest, p => if q = p then some n else lookupF rest p

/-- Replace the first binding of `p`, or append a new one. -/
def setF : DirTree → RPath → Node → DirTree
  | [], p, n => [(p, n)]
  | (q, m) :: rest, p, n =>
      if q = p then (p, n) :: rest else (q, m) :: setF rest p n

/-- Remove every binding of `p`. -/
def removeF : DirTree → RPath → DirTree
  | [], _ => []
  | (q, m) :: rest, p =>
      if q = p then removeF rest p else (q, m) :: removeF rest p

/-- The relative path of `copyFile`'s temporary file: the destination
path with `".tmp~"` appended to its last component
(`tmp := dstPath + ".tmp~"`), hence a sibling in the same directory. -/
def tmpPath : RPath → RPath
  | [] => [".tmp~"]
  | [x] => [x ++ ".tmp~"]
  | x :: y :: rest => x :: tmpPath (y :: rest)

/-- What `differ` reads out of an `os.FileInfo`: `Size()` and
`ModTime()` (nanoseconds since the zero time). -/
structure SInfo where
  size : Nat
  modTimeNs : Int
deriving Repr, DecidableEq

/-- The `os.FileInfo` view of a regular file. -/
def infoF (f : File) : SInfo :=
  { size := f.content.length, modTimeNs := f.modTimeNs }

/-- `truncateToSeconds` rounds a time down to a whole multiple of one
second since the zero time (`t.Truncate(time.Second)`). -/
def truncateToSeconds (ns : Int) : Int :=
  1000000000 * Int.fdiv ns 1000000000

/-- `differ` from `sync.go`: size mismatch means copy; with equal sizes,
compare modification times truncated to whole seconds. -/
def differ (src dst : SInfo) : Bool :=
  if src.size ≠ dst.size then true
  else !(truncateToSeconds src.modTimeNs == truncateToSeconds dst.modTimeNs)

/-- `Report` from `report.go`. -/
structure Report where
  Copied : Nat := 0
  Overwritten : Nat := 0
  Deleted : Nat := 0
  Skipped : Nat := 0
  Errors : List Err := []
deriving Repr, DecidableEq

/-- `(*Report).addErr`: append a non-nil error, ignore a nil one. -/
def Report.addErr (r : Report) (e : Option Err) : Report :=
  match e with
  | none => r
  | some e => { r with Errors := r.Errors ++ [e] }

/-- Which step of `copyFile` the oracle makes fail (if any). -/
inductive CopyFault where
  | noFault
  | mkdirF      -- os.MkdirAll(filepath.Dir(dstPath), 0o755)
  | openSrcF    -- os.Open(srcPath)
  | openTmpF    -- os.OpenFile(tmp, O_CREATE|O_WRONLY|O_TRUNC, perm)
  | copyF       -- io.Copy(df, sf)
  | closeF      -- df.Close()
  | chtimesF    -- os.Chtimes(tmp, time.Now(), srcInfo.ModTime())
  | renameF     -- os.Rename(tmp, dstPath)
deriving Repr, DecidableEq

/-- Injectable failures for one forward-pass walk entry. -/
structure EntFaults where
  readErr : Option Err   -- WalkDir hands the callback a non-nil err
  infoErr : Option Err   -- d.Info() fails
  statErr : Option Err   -- os.Stat(targetPath) fails, not ErrNotExist
  mkdirErr : Option Err  -- os.MkdirAll(targetPath, 0o755) fails (dir entry)
  cp : CopyFault
deriving Repr, DecidableEq

/-- Injectable failures for one delete-pass walk entry. -/
structure DelFaults where
  readErr : Option Err   -- WalkDir hands the callback a non-nil err
  statErr : Option Err   -- os.Stat(srcPath) fails, not ErrNotExist
  rmErr : Option Err     -- os.Remove(path) fails
deriving Repr, DecidableEq

def noEntFaults : EntFaults :=
  { readErr := none, infoErr := none, statErr := none, mkdirErr := none
    cp := CopyFault.noFault }

def noDelFaults : DelFaults :=
  { readErr := none, statErr := none, rmErr := none }

/-- The filesystem/fault oracle for one run: per-path injected faults,
root-traversal failures, what `os.Stat` reports for a directory, and
the wall clock read by `time.Now()`. -/
structure Faults where
  fwd : RPath → EntFaults
  del : RPath → DelFaults
  rootS : Option Err     -- WalkDir cannot read the source root
  rootT : Option Err     -- WalkDir cannot read the target root
  dirInfo : SInfo        -- Size()/ModTime() that stat reports for a directory
  now : Int              -- time.Now(), used for the temp file's transient mtime

/-- The `os.FileInfo` view of a tree node (`flt.dirInfo` for a directory). -/
def infoN (flt : Faults) : Node → SInfo
  | Node.dir => flt.dirInfo
  | Node.file f => infoF f

/-- `Options` from `sync.go` (the `*log.Logger` collaborator is
write-only observability and is not modelled). -/
structure Options where
  Source : RPath
  Target : RPath
  DeleteMissing : Bool

/-- Engine state threaded through a run: the target tree, the report
being accumulated, and the trace of mutated absolute paths. -/
structure St where
  tree : DirTree
  rep : Report
  muts : List RPath
deriving Repr, DecidableEq

/-- `copyFile` from `sync.go`, on the target tree.  Steps, in source
order: ensure the destination's parent directory chain
(`filepath.Dir(dstPath) = Join(Target, rel.dropLast)` for the non-root
relative paths the walk yields); open the source; create/truncate the
sibling temporary file `tmpPath rel` with the source's permission bits
(creating over an existing directory fails, as `O_CREATE` does;
truncating an existing regular file keeps that file's permission bits);
stream-copy; close; set the temporary file's mtime to the source's;
rename onto the destination (failing if the destination is an existing
directory, as `rename(2)` does).  Every failure after creation removes
the temporary file (best effort) before surfacing the error.  Returns
the new tree, the mutated absolute paths, and the error if any. -/
def copyFile (opt : Options) (cp : CopyFault) (f : File) (rel : RPath)
    (t : DirTree) : DirTree × List RPath × Option Err :=
  let parent : RPath := opt.Target ++ rel.dropLast
  if cp = CopyFault.mkdirF then (t, [parent], some "mkdir") else
  if cp = CopyFault.openSrcF then (t, [parent], some "open src") else
  let tmp := tmpPath rel
  let tmpAbs := opt.Target ++ tmp
  if cp = CopyFault.openTmpF then (t, [parent, tmpAbs], some "open tmp") else
  match lookupF t tmp with
  | some Node.dir => (t, [parent, tmpAbs], some "open tmp")
  | _ =>
    -- permission bits of the temp file: kept when O_CREATE truncates an
    -- existing regular file, the source's bits when it creates one
    let tperm : Nat :=
      match lookupF t tmp with
      | some (Node.file old) => old.perm
      | _ => f.perm
    if cp = CopyFault.copyF then
      (removeF (setF t tmp (Node.file ⟨[], (0 : Int), tperm, true⟩)) tmp,
       [parent, tmpAbs], some "copy") else
    if cp = CopyFault.closeF then
      (removeF (setF t tmp (Node.file ⟨f.content, (0 : Int), tperm, true⟩)) tmp,
       [parent, tmpAbs], some "close tmp") else
    if cp = CopyFault.chtimesF then
      (removeF (setF t tmp (Node.file ⟨f.content, (0 : Int), tperm, true⟩)) tmp,
       [parent, tmpAbs], some "chtimes") else
    let stamped : Node := Node.file ⟨f.content, f.modTimeNs, tperm, true⟩
    match lookupF t rel with
    | some Node.dir =>
        (removeF (setF t tmp stamped) tmp, [parent, tmpAbs], some "rename")
    | _ =>
      if cp = CopyFault.renameF then
        (removeF (setF t tmp stamped) tmp, [parent, tmpAbs], some "rename")
      else
        (setF (removeF (setF t tmp stamped) tmp) rel stamped,
         [parent, tmpAbs, opt.Target ++ rel], none)

/-- The forward-pass `WalkDir` callback of `Sync`, for one walk entry
(the source root is never an entry).  The returned `Option Err` is what
the callback hands back to `WalkDir`; the Go callback ends every branch
with `return nil`. -/
def fwdStep (opt : Options) (flt : Faults) (st : St) (ent : RPath × Node) :
    St × Option Err :=
  let rel := ent.1
  let fl := flt.fwd rel
  match fl.readErr with
  | some e => ({ st with rep := st.rep.addErr (some e) }, none)
  | none =>
    match ent.2 with
    | Node.dir =>
        -- os.MkdirAll(targetPath, 0o755); fails if a non-directory
        -- already occupies the path
        let mu := st.muts ++ [opt.Target ++ rel]
        match fl.mkdirErr with
        | some e => ({ st with rep := st.rep.addErr (some e), muts := mu }, none)
        | none =>
          match lookupF st.tree rel with
          | some (Node.file _) =>
              ({ st with rep := st.rep.addErr (some "mkdir: not a directory")
                         muts := mu }, none)
          | some Node.dir => ({ st with muts := mu }, none)
          | none => ({ st with tree := setF st.tree rel Node.dir, muts := mu }, none)
    | Node.file f =>
      match fl.infoErr with
      | some e => ({ st with rep := st.rep.addErr (some e) }, none)
      | none =>
        if f.regular = false then
          ({ st with rep := { st.rep with Skipped := st.rep.Skipped + 1 } }, none)
        else
          match fl.statErr with
          | some e => ({ st with rep := st.rep.addErr (some e) }, none)
          | none =>
            match lookupF st.tree rel with
            | none =>
                -- stat: ErrNotExist, copy as new
                match copyFile opt fl.cp f rel st.tree with
                | (t, mu, some e) =>
                    ({ tree := t
                       rep := st.rep.addErr (some e)
                       muts := st.muts ++ mu }, none)
                | (t, mu, none) =>
                    ({ tree := t
                       rep := { st.rep with Copied := st.rep.Copied + 1 }
                       muts := st.muts ++ mu }, none)
            | some tn =>
                if differ (infoF f) (infoN flt tn) then
                  match copyFile opt fl.cp f rel st.tree with
                  | (t, mu, some e) =>
                      ({ tree := t
                         rep := st.rep.addErr (some e)
                         muts := st.muts ++ mu }, none)
                  | (t, mu, none) =>
                      ({ tree := t
                         rep := { st.rep with Overwritten := st.rep.Overwritten + 1 }
                         muts := st.muts ++ mu }, none)
                else
                  ({ st with rep := { st.rep with Skipped := st.rep.Skipped + 1 } },
                   none)

/-- The delete-pass `WalkDir` callback of `Sync`, for one walk entry of
the target tree (the target root is never an entry). -/
def delStep (opt : Options) (flt : Faults) (srcT : DirTree) (st : St)
    (ent : RPath × Node) : St × Option Err :=
  let rel := ent.1
  let fl := flt.del rel
  match fl.readErr with
  | some e => ({ st with rep := st.rep.addErr (some e) }, none)
  | none =>
    match ent.2 with
    | Node.dir => (st, none)
    | Node.file _ =>
      -- os.Stat(srcPath)
      match fl.statErr with
      | some e => ({ st with rep := st.rep.addErr (some e) }, none)
      | none =>
        match lookupF srcT rel with
        | some _ => (st, none)   -- still exists in source: keep
        | none =>
          let mu := st.muts ++ [opt.Target ++ rel]
          match fl.rmErr with
          | some e => ({ st with rep := st.rep.addErr (some e), muts := mu }, none)
          | none =>
              ({ tree := removeF st.tree rel
                 rep := { st.rep with Deleted := st.rep.Deleted + 1 }
                 muts := mu }, none)

/-- `filepath.WalkDir`'s driving loop over the listed entries: visit in
order, stop and return the first non-nil error a callback returns. -/
def walkAux (f : St → RPath × Node → St × Option Err) :
    St → List (RPath × Node) → St × Option Err
  | st, [] => (st, none)
  | st, ent :: rest =>
      match f st ent with
      | (st, none) => walkAux f st rest
      | (st, some e) => (st, some e)

/-- One `WalkDir` pass: if the root itself cannot be read the callback
is invoked once with that error (the err-branch appends it and returns
nil, so WalkDir returns nil and no entry is visited); otherwise the
entries are visited in order.  The caller's `if err != nil` check after
the walk feeds the walk's return into `addErr`. -/
def walkPass (rootErr : Option Err)
    (f : St → RPath × Node → St × Option Err)
    (st : St) (entries : List (RPath × Node)) : St :=
  match rootErr with
  | some e => { st with rep := st.rep.addErr (some e) }
  | none =>
      let (st, w) := walkAux f st entries
      { st with rep := st.rep.addErr w }

/-- `Sync` from `sync.go`: forward pass over the source tree, then, if
`DeleteMissing` is set, a delete pass over the target tree as it stands
after the forward pass. -/
def Sync (opt : Options) (flt : Faults) (srcT tgt0 : DirTree) : St :=
  let st0 : St := { tree := tgt0, rep := {}, muts := [] }
  let st1 := walkPass flt.rootS (fwdStep opt flt) st0 srcT
  if opt.DeleteMissing then
    walkPass flt.rootT (delStep opt flt srcT) st1 st1.tree
  else
    st1

/-- `n` runs of `Sync` back to back on a static source tree, threading
the target tree; each run gets a fresh `Report` (runs are stateless
apart from the filesystem) and its own fault schedule. -/
def syncIter (opt : Options) (fs : Nat → Faults) (srcT : DirTree) :
    Nat → DirTree → DirTree
  | 0, t => t
  | n + 1, t => syncIter opt fs srcT n (Sync opt (fs n) srcT t).tree

/-! ### Basic lemmas about the tree operations -/

theorem lookupF_setF (t : DirTree) (p q : RPath) (n : Node) :
    lookupF (setF t p n) q = if p = q then some n else lookupF t q := by
  by_cases hpq : p = q
  · subst hpq
    rw [if_pos rfl]
    induction t with
    | nil => simp [setF, lookupF]
    | cons a rest ih =>
        obtain ⟨ap, an⟩ := a
        by_cases hap : ap = p
        · subst hap; simp [setF, lookupF]
        · simp [setF, lookupF, hap, ih]
  · rw [if_neg hpq]
    induction t with
    | nil => simp [setF, lookupF, hpq]
    | cons a rest ih =>
        obtain ⟨ap, an⟩ := a
        by_cases hap : ap = p
        · subst hap
          simp [setF, lookupF, hpq]
        · by_cases haq : ap = q
          · subst haq; simp [setF, lookupF, hap]
          · simp [setF, lookupF, hap, haq, ih]

theorem lookupF_removeF (t : DirTree) (p q : RPath) :
    lookupF (removeF t p) q = if p = q then none else lookupF t q := by
  by_cases hpq : p = q
  · subst hpq
    rw [if_pos rfl]
    induction t with
    | nil => simp [removeF, lookupF]
    | cons a rest ih =>
        obtain ⟨ap, an⟩ := a
        by_cases hap : ap = p
        · subst hap; simp [removeF, ih]
        · simp [removeF, lookupF, hap, ih]
  · rw [if_neg hpq]
    induction t with
    | nil => simp [removeF, lookupF]
    | cons a rest ih =>
        obtain ⟨ap, an⟩ := a
        by_cases hap : ap = p
        · subst hap
          simp [removeF, lookupF, hpq, ih]
        · by_cases haq : ap = q
          · subst haq; simp [removeF, lookupF, hap]
          · simp [removeF, lookupF, hap, haq, ih]

theorem removeF_setF (t : DirTree) (p : RPath) (n : Node) :
    removeF (setF t p n) p = removeF t p := by
  induction t with
  | nil => simp [setF, removeF]
  | cons a rest ih =>
      obtain ⟨ap, an⟩ := a
      by_cases hap : ap = p
      · subst hap; simp [setF, removeF]
      · simp [setF, removeF, hap, ih]

theorem lookupF_mem (t : DirTree) (q : RPath) (n : Node)
    (h : lookupF t q = some n) : (q, n) ∈ t := by
  induction t with
  | nil => simp [lookupF] at h
  | cons a rest ih =>
      obtain ⟨ap, an⟩ := a
      by_cases hq : ap = q
      · subst hq
        simp [lookupF] at h
        simp [h]
      · simp [lookupF, hq] at h
        exact List.mem_cons_of_mem _ (ih h)

theorem mem_lookupF_ne_none (t : DirTree) (q : RPath) (n : Node)
    (h : (q, n) ∈ t) : lookupF t q ≠ none := by
  induction t with
  | nil => simp at h
  | cons a rest ih =>
      obtain ⟨ap, an⟩ := a
      rcases List.mem_cons.mp h with h | h
      · have h1 : ap = q := (congrArg Prod.fst h).symm
        simp [lookupF, h1]
      · by_cases hq : ap = q
        · simp [lookupF, hq]
        · simp only [lookupF, if_neg hq]
          exact ih h

/-! ### Lemmas about the reserved temporary-file suffix -/

/-- A relative path whose last component carries the reserved `.tmp~`
suffix. -/
def tmpNamed (p : RPath) : Prop :=
  ∃ q u, p = q ++ [u ++ ".tmp~"]

theorem tmpNamed_tmpPath (p : RPath) : tmpNamed (tmpPath p) := by
  induction p with
  | nil => exact ⟨[], "", rfl⟩
  | cons x xs ih =>
      cases xs with
      | nil => exact ⟨[], x, rfl⟩
      | cons y rest =>
          obtain ⟨q, u, hq⟩ := ih
          exact ⟨x :: q, u, by simp [tmpPath, hq]⟩

theorem ne_tmpPath_of_not_tmpNamed (p q : RPath) (h : ¬ tmpNamed q) :
    tmpPath p ≠ q := by
  intro hc
  exact h (hc ▸ tmpNamed_tmpPath p)

theorem string_append_tmp_ne (s : String) : s ++ ".tmp~" ≠ s := by
  intro h
  have hl := congrArg String.length h
  rw [String.length_append] at hl
  have h5 : (".tmp~" : String).length = 5 := rfl
  omega

theorem string_append_tmp_inj (s u : String) (h : s ++ ".tmp~" = u ++ ".tmp~") :
    s = u := by
  have hd := congrArg String.data h
  rw [String.data_append, String.data_append] at hd
  have := List.append_cancel_right hd
  cases s; cases u; simp_all

theorem tmpPath_ne_self (p : RPath) : tmpPath p ≠ p := by
  induction p with
  | nil => simp [tmpPath]
  | cons x xs ih =>
      cases xs with
      | nil => simp [tmpPath, string_append_tmp_ne]
      | cons y rest =>
          simp only [tmpPath, ne_eq, List.cons.injEq, not_and]
          intro _
          exact ih

theorem tmpPath_cons_ne_nil (p : RPath) : tmpPath p ≠ [] := by
  cases p with
  | nil => simp [tmpPath]
  | cons x xs => cases xs <;> simp [tmpPath]

theorem tmpPath_inj (p q : RPath) (hp : p ≠ []) (hq : q ≠ [])
    (h : tmpPath p = tmpPath q) : p = q := by
  induction p generalizing q with
  | nil => exact absurd rfl hp
  | cons x xs ih =>
      cases q with
      | nil => exact absurd rfl hq
      | cons y ys =>
          cases xs with
          | nil =>
              cases ys with
              | nil =>
                  simp only [tmpPath, List.cons.injEq] at h
                  rw [string_append_tmp_inj x y h.1]
              | cons z zs =>
                  simp only [tmpPath, List.cons.injEq] at h
                  exact absurd h.2.symm (tmpPath_cons_ne_nil (z :: zs))
          | cons w ws =>
              cases ys with
              | nil =>
                  simp only [tmpPath, List.cons.injEq] at h
                  exact absurd h.2 (tmpPath_cons_ne_nil (w :: ws))
              | cons z zs =>
                  simp only [tmpPath, List.cons.injEq] at h
                  rw [h.1, ih (z :: zs) (by simp) (by simp) h.2]

/-! ### Characterization of `copyFile` -/

/-- Every result tree of `copyFile` is the input tree, the input tree
with the temporary path removed, or additionally with the destination
set to a fresh regular file carrying the source's content and mtime. -/
theorem copyFile_tree_cases (opt : Options) (cp : CopyFault) (f : File)
    (rel : RPath) (t : DirTree) :
    (copyFile opt cp f rel t).1 = t ∨
    (copyFile opt cp f rel t).1 = removeF t (tmpPath rel) ∨
    ∃ pm, (copyFile opt cp f rel t).1 =
      setF (removeF t (tmpPath rel)) rel
        (Node.file ⟨f.content, f.modTimeNs, pm, true⟩) := by
  rcases htmp : lookupF t (tmpPath rel) with _ | ntmp | old
  case some.dir =>
    cases cp <;> simp [copyFile, htmp]
  all_goals
    cases cp <;>
      simp [copyFile, htmp, removeF_setF] <;>
      rcases hrel : lookupF t rel with _ | nrel | g <;>
      simp [hrel] <;>
      try exact Or.inr (Or.inr ⟨_, rfl⟩)

/-- `copyFile` touches only the destination path and its temporary
sibling. -/
theorem copyFile_frame (opt : Options) (cp : CopyFault) (f : File)
    (rel : RPath) (t : DirTree) (q : RPath) (h1 : q ≠ rel)
    (h2 : q ≠ tmpPath rel) :
    lookupF (copyFile opt cp f rel t).1 q = lookupF t q := by
  rcases copyFile_tree_cases opt cp f rel t with h | h | ⟨pm, h⟩ <;>
    simp [h, lookupF_removeF, lookupF_setF, Ne.symm h2, Ne.symm h1]

/-- A `copyFile` invocation that fails at the streaming-copy, close,
timestamp-set, or rename step (injected, or the intrinsic failure of
renaming onto an existing directory) removes the temporary file and
returns an error, leaving every other path alone. -/
theorem copyFile_lateFail (opt : Options) (cp : CopyFault) (f : File)
    (rel : RPath) (t : DirTree)
    (hnd : lookupF t (tmpPath rel) ≠ some Node.dir)
    (hcp : cp = CopyFault.copyF ∨ cp = CopyFault.closeF ∨
           cp = CopyFault.chtimesF ∨ cp = CopyFault.renameF ∨
           (cp = CopyFault.noFault ∧ lookupF t rel = some Node.dir)) :
    ∃ e, copyFile opt cp f rel t =
      (removeF t (tmpPath rel),
       [opt.Target ++ rel.dropLast, opt.Target ++ tmpPath rel], some e) := by
  rcases htmp : lookupF t (tmpPath rel) with _ | ntmp | old
  case some.dir => exact absurd htmp hnd
  all_goals
    rcases hcp with h | h | h | h | ⟨h, hd⟩ <;> subst h <;>
      simp [copyFile, htmp, removeF_setF] <;>
      try simp [hd]
  all_goals
    rcases hrel : lookupF t rel with _ | nrel | g <;> simp [hrel]

/-- A fault-free `copyFile` whose temporary path is not blocked by a
directory and whose destination is not an existing directory succeeds:
it installs a regular file with the source's content and modification
time at the destination, removing any file at the temporary path. -/
theorem copyFile_ok (opt : Options) (f : File) (rel : RPath) (t : DirTree)
    (hnd : lookupF t (tmpPath rel) ≠ some Node.dir)
    (hrd : lookupF t rel ≠ some Node.dir) :
    ∃ pm, copyFile opt CopyFault.noFault f rel t =
      (setF (removeF t (tmpPath rel)) rel
         (Node.file ⟨f.content, f.modTimeNs, pm, true⟩),
       [opt.Target ++ rel.dropLast, opt.Target ++ tmpPath rel,
        opt.Target ++ rel], none) := by
  rcases htmp : lookupF t (tmpPath rel) with _ | ntmp
  · rcases hrel : lookupF t rel with _ | nrel
    · exact ⟨f.perm, by simp [copyFile, htmp, hrel, removeF_setF]⟩
    · cases nrel with
      | dir => exact absurd hrel hrd
      | file g => exact ⟨f.perm, by simp [copyFile, htmp, hrel, removeF_setF]⟩
  · cases ntmp with
    | dir => exact absurd htmp hnd
    | file old =>
        rcases hrel : lookupF t rel with _ | nrel
        · exact ⟨old.perm, by simp [copyFile, htmp, hrel, removeF_setF]⟩
        · cases nrel with
          | dir => exact absurd hrel hrd
          | file g => exact ⟨old.perm, by simp [copyFile, htmp, hrel, removeF_setF]⟩

/-- `copyFile` never returns with the temporary file still in place. -/
theorem copyFile_no_tmp_left (opt : Options) (cp : CopyFault) (f : File)
    (rel : RPath) (t : DirTree) :
    lookupF (copyFile opt cp f rel t).1 (tmpPath rel) = none ∨
    (copyFile opt cp f rel t).1 = t := by
  rcases copyFile_tree_cases opt cp f rel t with h | h | ⟨pm, h⟩
  · right; exact h
  · left; simp [h, lookupF_removeF]
  · left
    simp [h, lookupF_setF, lookupF_removeF, Ne.symm (tmpPath_ne_self rel)]

/-! ### The walk callbacks never abort the traversal -/

/-- The forward-pass callback ends every branch with `return nil`. -/
theorem fwdStep_snd (opt : Options) (flt : Faults) (st : St)
    (ent : RPath × Node) : (fwdStep opt flt st ent).2 = none := by
  unfold fwdStep
  dsimp only
  repeat' split
  all_goals rfl

/-- The delete-pass callback ends every branch with `return nil`. -/
theorem delStep_snd (opt : Options) (flt : Faults) (srcT : DirTree) (st : St)
    (ent : RPath × Node) : (delStep opt flt srcT st ent).2 = none := by
  unfold delStep
  dsimp only
  repeat' split
  all_goals rfl

/-- A walk whose callback never returns an error visits every entry and
returns none: it is a plain fold. -/
theorem walkAux_eq_foldl (f : St → RPath × Node → St × Option Err)
    (h : ∀ s b, (f s b).2 = none) (st : St) (es : List (RPath × Node)) :
    walkAux f st es = (es.foldl (fun s e => (f s e).1) st, none) := by
  induction es generalizing st with
  | nil => rfl
  | cons e rest ih =>
      have he := h st e
      unfold walkAux
      rcases hf : f st e with ⟨st1, w⟩
      rw [hf] at he
      simp at he
      subst he
      simp [List.foldl, hf, ih]

/-- The forward pass as a fold over the source entries. -/
def fwdFold (opt : Options) (flt : Faults) (st : St)
    (es : List (RPath × Node)) : St :=
  es.foldl (fun s e => (fwdStep opt flt s e).1) st

/-- The delete pass as a fold over the target-tree snapshot. -/
def delFold (opt : Options) (flt : Faults) (srcT : DirTree) (st : St)
    (es : List (RPath × Node)) : St :=
  es.foldl (fun s e => (delStep opt flt srcT s e).1) st

theorem addErr_none (r : Report) : r.addErr none = r := rfl

theorem st_addErr_none (st : St) : { st with rep := st.rep.addErr none } = st := rfl

/-- With readable roots, `Sync` is the forward fold followed (when
requested) by the delete fold over the resulting tree. -/
theorem Sync_eq (opt : Options) (flt : Faults) (srcT tgt0 : DirTree)
    (hS : flt.rootS = none) (hT : flt.rootT = none) :
    Sync opt flt srcT tgt0 =
      if opt.DeleteMissing then
        delFold opt flt srcT (fwdFold opt flt ⟨tgt0, {}, []⟩ srcT)
          (fwdFold opt flt ⟨tgt0, {}, []⟩ srcT).tree
      else fwdFold opt flt ⟨tgt0, {}, []⟩ srcT := by
  unfold Sync walkPass
  rw [hS, hT]
  dsimp only
  rw [walkAux_eq_foldl _ (fwdStep_snd opt flt)]
  dsimp only
  by_cases hdm : opt.DeleteMissing
  · simp only [hdm, if_true]
    rw [walkAux_eq_foldl _ (delStep_snd opt flt srcT)]
    simp [fwdFold, delFold, addErr_none]
  · simp [hdm, fwdFold, addErr_none]

/-! ### Frame and characterization lemmas for the two callbacks -/

theorem copyFile_frame_eq (opt : Options) {cp : CopyFault} {f : File}
    {rel : RPath} {t t2 : DirTree} {mu : List RPath} {w : Option Err}
    (heq : copyFile opt cp f rel t = (t2, mu, w)) (q : RPath)
    (h1 : q ≠ rel) (h2 : q ≠ tmpPath rel) : lookupF t2 q = lookupF t q := by
  have hf := copyFile_frame opt cp f rel t q h1 h2
  rw [heq] at hf
  exact hf

/-- One forward step touches, at most, the entry's destination path and
its temporary sibling. -/
theorem fwdStep_frame (opt : Options) (flt : Faults) (st : St)
    (ent : RPath × Node) (q : RPath) (h1 : q ≠ ent.1)
    (h2 : q ≠ tmpPath ent.1) :
    lookupF (fwdStep opt flt st ent).1.tree q = lookupF st.tree q := by
  unfold fwdStep
  dsimp only
  repeat' split
  all_goals (try rfl)
  all_goals (try simp [lookupF_setF, Ne.symm h1])
  all_goals (rename_i heq; exact copyFile_frame_eq opt heq q h1 h2)

/-- Characterization of a fault-free forward step on a regular file
whose destination does not yet exist: a new copy is installed and
`Copied` is incremented. -/
theorem fwdStep_copy (opt : Options) (flt : Faults) (st : St) (rel : RPath)
    (f : File) (hfl : flt.fwd rel = noEntFaults) (hreg : f.regular = true)
    (hnd : lookupF st.tree (tmpPath rel) ≠ some Node.dir)
    (habs : lookupF st.tree rel = none) :
    ∃ pm, (fwdStep opt flt st (rel, Node.file f)).1 =
      { tree := setF (removeF st.tree (tmpPath rel)) rel
          (Node.file ⟨f.content, f.modTimeNs, pm, true⟩)
        rep := { st.rep with Copied := st.rep.Copied + 1 }
        muts := st.muts ++ [opt.Target ++ rel.dropLast,
          opt.Target ++ tmpPath rel, opt.Target ++ rel] } := by
  obtain ⟨pm, hcf⟩ := copyFile_ok opt f rel st.tree hnd (by simp [habs])
  refine ⟨pm, ?_⟩
  unfold fwdStep
  simp [hfl, noEntFaults, hreg, habs, hcf]

/-- Characterization of a fault-free forward step on a regular file
whose destination exists and differs: the copy is installed and
`Overwritten` is incremented. -/
theorem fwdStep_over (opt : Options) (flt : Faults) (st : St) (rel : RPath)
    (f g : File) (hfl : flt.fwd rel = noEntFaults) (hreg : f.regular = true)
    (hnd : lookupF st.tree (tmpPath rel) ≠ some Node.dir)
    (hex : lookupF st.tree rel = some (Node.file g))
    (hdif : differ (infoF f) (infoF g) = true) :
    ∃ pm, (fwdStep opt flt st (rel, Node.file f)).1 =
      { tree := setF (removeF st.tree (tmpPath rel)) rel
          (Node.file ⟨f.content, f.modTimeNs, pm, true⟩)
        rep := { st.rep with Overwritten := st.rep.Overwritten + 1 }
        muts := st.muts ++ [opt.Target ++ rel.dropLast,
          opt.Target ++ tmpPath rel, opt.Target ++ rel] } := by
  obtain ⟨pm, hcf⟩ := copyFile_ok opt f rel st.tree hnd (by simp [hex])
  refine ⟨pm, ?_⟩
  unfold fwdStep
  simp [hfl, noEntFaults, hreg, hex, infoN, hdif, hcf]

/-- Characterization of a fault-free forward step on a regular file
whose destination exists and is identical: only `Skipped` moves. -/
theorem fwdStep_skip (opt : Options) (flt : Faults) (st : St) (rel : RPath)
    (f g : File) (hfl : flt.fwd rel = noEntFaults) (hreg : f.regular = true)
    (hex : lookupF st.tree rel = some (Node.file g))
    (hdif : differ (infoF f) (infoF g) = false) :
    (fwdStep opt flt st (rel, Node.file f)).1 =
      { st with rep := { st.rep with Skipped := st.rep.Skipped + 1 } } := by
  unfold fwdStep
  simp [hfl, noEntFaults, hreg, hex, infoN, hdif]

/-- A non-regular source file is only counted as skipped. -/
theorem fwdStep_irregular (opt : Options) (flt : Faults) (st : St)
    (rel : RPath) (f : File) (hfl : flt.fwd rel = noEntFaults)
    (hreg : f.regular = false) :
    (fwdStep opt flt st (rel, Node.file f)).1 =
      { st with rep := { st.rep with Skipped := st.rep.Skipped + 1 } } := by
  unfold fwdStep
  simp [hfl, noEntFaults, hreg]

/-- Characterization of a fault-free forward step on a directory entry
whose target path is not blocked by a file: afterwards the target has a
directory there, the report is unchanged, and no other path moved. -/
theorem fwdStep_dir (opt : Options) (flt : Faults) (st : St) (rel : RPath)
    (hfl : flt.fwd rel = noEntFaults)
    (hnf : ∀ g, lookupF st.tree rel ≠ some (Node.file g)) :
    (fwdStep opt flt st (rel, Node.dir)).1 =
      { st with tree := setF st.tree rel Node.dir
                muts := st.muts ++ [opt.Target ++ rel] } ∨
    (lookupF st.tree rel = some Node.dir ∧
      (fwdStep opt flt st (rel, Node.dir)).1 =
        { st with muts := st.muts ++ [opt.Target ++ rel] }) := by
  unfold fwdStep
  rcases hl : lookupF st.tree rel with _ | n
  · left
    simp [hfl, noEntFaults, hl]
  · cases n with
    | dir =>
        right
        refine ⟨rfl, ?_⟩
        simp [hfl, noEntFaults, hl]
    | file g => exact absurd hl (hnf g)

/-- A delete step leaves every path other than the entry's alone. -/
theorem delStep_frame (opt : Options) (flt : Faults) (srcT : DirTree)
    (st : St) (ent : RPath × Node) (q : RPath) (h1 : q ≠ ent.1) :
    lookupF (delStep opt flt srcT st ent).1.tree q = lookupF st.tree q := by
  unfold delStep
  dsimp only
  repeat' split
  all_goals (try rfl)
  all_goals simp [lookupF_removeF, Ne.symm h1]

/-- The tree after a delete step: unchanged, or the entry removed. -/
theorem delStep_tree_cases (opt : Options) (flt : Faults) (srcT : DirTree)
    (st : St) (ent : RPath × Node) :
    (delStep opt flt srcT st ent).1.tree = st.tree ∨
    (delStep opt flt srcT st ent).1.tree = removeF st.tree ent.1 := by
  unfold delStep
  dsimp only
  repeat' split
  all_goals simp

/-- A fault-free delete step keeps a file that still exists in source
(and any directory), changing nothing. -/
theorem delStep_keep (opt : Options) (flt : Faults) (srcT : DirTree)
    (st : St) (rel : RPath) (n : Node)
    (hfl : flt.del rel = noDelFaults)
    (h : n = Node.dir ∨ lookupF srcT rel ≠ none) :
    (delStep opt flt srcT st (rel, n)).1 = st := by
  cases n with
  | dir => unfold delStep; simp [hfl, noDelFaults]
  | file f =>
      rcases h with h | h
      · exact absurd h (by simp)
      · rcases hs : lookupF srcT rel with _ | m
        · exact absurd hs h
        · unfold delStep
          simp [hfl, noDelFaults, hs]

/-- A fault-free delete step removes a target file that is missing from
source and counts it. -/
theorem delStep_remove (opt : Options) (flt : Faults) (srcT : DirTree)
    (st : St) (rel : RPath) (f : File)
    (hfl : flt.del rel = noDelFaults)
    (habs : lookupF srcT rel = none) :
    (delStep opt flt srcT st (rel, Node.file f)).1 =
      { tree := removeF st.tree rel
        rep := { st.rep with Deleted := st.rep.Deleted + 1 }
        muts := st.muts ++ [opt.Target ++ rel] } := by
  unfold delStep
  simp [hfl, noDelFaults, habs]

/-- A delete step never increments `Deleted` for an entry that still
exists in source, no matter which faults fire. -/
theorem delStep_insrc_rep (opt : Options) (flt : Faults) (srcT : DirTree)
    (st : St) (ent : RPath × Node)
    (hin : lookupF srcT ent.1 ≠ none) :
    (delStep opt flt srcT st ent).1.rep.Deleted = st.rep.Deleted := by
  unfold delStep
  dsimp only
  repeat' split
  all_goals (try rfl)
  all_goals (try simp [Report.addErr])
  all_goals simp_all

/-! ### Per-entry outcome and report-growth lemmas -/

/-- Visiting one file entry in the forward pass moves the report by
exactly one outcome (note the four shapes below are pairwise
incompatible, since each pins every field of the new report). -/
theorem fwdStep_file_outcome (opt : Options) (flt : Faults) (st : St)
    (rel : RPath) (f : File) :
    ((fwdStep opt flt st (rel, Node.file f)).1.rep =
        { st.rep with Copied := st.rep.Copied + 1 }) ∨
    ((fwdStep opt flt st (rel, Node.file f)).1.rep =
        { st.rep with Overwritten := st.rep.Overwritten + 1 }) ∨
    ((fwdStep opt flt st (rel, Node.file f)).1.rep =
        { st.rep with Skipped := st.rep.Skipped + 1 }) ∨
    (∃ e, (fwdStep opt flt st (rel, Node.file f)).1.rep =
        { st.rep with Errors := st.rep.Errors ++ [e] }) := by
  unfold fwdStep
  dsimp only
  repeat' split
  all_goals
    first
      | exact Or.inl rfl
      | exact Or.inr (Or.inl rfl)
      | exact Or.inr (Or.inr (Or.inl rfl))
      | exact Or.inr (Or.inr (Or.inr ⟨_, rfl⟩))

/-- Visiting one file entry in the delete pass moves the report by
exactly one outcome: a deletion, an error, or nothing — the latter only
when the file still exists in source. -/
theorem delStep_file_outcome (opt : Options) (flt : Faults) (srcT : DirTree)
    (st : St) (rel : RPath) (f : File) :
    ((delStep opt flt srcT st (rel, Node.file f)).1.rep =
        { st.rep with Deleted := st.rep.Deleted + 1 }) ∨
    (∃ e, (delStep opt flt srcT st (rel, Node.file f)).1.rep =
        { st.rep with Errors := st.rep.Errors ++ [e] }) ∨
    ((delStep opt flt srcT st (rel, Node.file f)).1.rep = st.rep ∧
        lookupF srcT rel ≠ none) := by
  unfold delStep
  dsimp only
  repeat' split
  all_goals
    first
      | exact Or.inl rfl
      | exact Or.inr (Or.inl ⟨_, rfl⟩)
      | (rename_i heq
         exact Or.inr (Or.inr ⟨rfl, by simp [heq]⟩))

/-- Pointwise growth of one report into another: counters never
decrease and the recorded errors extend the old ones in order. -/
def repGrows (a b : Report) : Prop :=
  a.Copied ≤ b.Copied ∧ a.Overwritten ≤ b.Overwritten ∧
  a.Deleted ≤ b.Deleted ∧ a.Skipped ≤ b.Skipped ∧ a.Errors <+: b.Errors

theorem repGrows_refl (a : Report) : repGrows a a :=
  ⟨le_refl _, le_refl _, le_refl _, le_refl _, List.prefix_refl _⟩

theorem repGrows_trans {a b c : Report} (h1 : repGrows a b)
    (h2 : repGrows b c) : repGrows a c :=
  ⟨h1.1.trans h2.1, h1.2.1.trans h2.2.1, h1.2.2.1.trans h2.2.2.1,
   h1.2.2.2.1.trans h2.2.2.2.1, h1.2.2.2.2.trans h2.2.2.2.2⟩

theorem repGrows_addErr (a : Report) (e : Option Err) :
    repGrows a (a.addErr e) := by
  cases e with
  | none => exact repGrows_refl a
  | some e =>
      refine ⟨le_refl _, le_refl _, le_refl _, le_refl _, ?_⟩
      exact ⟨[e], rfl⟩

theorem fwdStep_repGrows (opt : Options) (flt : Faults) (st : St)
    (ent : RPath × Node) :
    repGrows st.rep (fwdStep opt flt st ent).1.rep := by
  unfold fwdStep
  dsimp only
  repeat' split
  all_goals
    first
      | exact repGrows_refl _
      | exact repGrows_addErr _ _
      | exact ⟨by simp, by simp, by simp, by simp, List.prefix_refl _⟩

theorem delStep_repGrows (opt : Options) (flt : Faults) (srcT : DirTree)
    (st : St) (ent : RPath × Node) :
    repGrows st.rep (delStep opt flt srcT st ent).1.rep := by
  unfold delStep
  dsimp only
  repeat' split
  all_goals
    first
      | exact repGrows_refl _
      | exact repGrows_addErr _ _
      | exact ⟨by simp, by simp, by simp, by simp, List.prefix_refl _⟩

theorem fwdFold_repGrows (opt : Options) (flt : Faults) (st : St)
    (es : List (RPath × Node)) :
    repGrows st.rep (fwdFold opt flt st es).rep := by
  induction es generalizing st with
  | nil => exact repGrows_refl _
  | cons e rest ih =>
      exact repGrows_trans (fwdStep_repGrows opt flt st e) (ih _)

theorem delFold_repGrows (opt : Options) (flt : Faults) (srcT : DirTree)
    (st : St) (es : List (RPath × Node)) :
    repGrows st.rep (delFold opt flt srcT st es).rep := by
  induction es generalizing st with
  | nil => exact repGrows_refl _
  | cons e rest ih =>
      exact repGrows_trans (delStep_repGrows opt flt srcT st e) (ih _)

/-! ### Fold-level lemmas for whole passes -/

def keysOf (t : DirTree) : List RPath := t.map Prod.fst

theorem mem_keysOf (t : DirTree) (q : RPath) (n : Node) (h : (q, n) ∈ t) :
    q ∈ keysOf t := List.mem_map_of_mem Prod.fst h

theorem keysOf_cons (e : RPath × Node) (rest : List (RPath × Node)) :
    keysOf (e :: rest) = e.1 :: keysOf rest := rfl

theorem fwdFold_cons (opt : Options) (flt : Faults) (st : St)
    (e : RPath × Node) (rest : List (RPath × Node)) :
    fwdFold opt flt st (e :: rest) =
      fwdFold opt flt (fwdStep opt flt st e).1 rest := rfl

theorem delFold_cons (opt : Options) (flt : Faults) (srcT : DirTree) (st : St)
    (e : RPath × Node) (rest : List (RPath × Node)) :
    delFold opt flt srcT st (e :: rest) =
      delFold opt flt srcT (delStep opt flt srcT st e).1 rest := rfl

/-- The whole forward pass leaves alone every path that is neither a
listed source path nor reserved-suffix named. -/
theorem fwdFold_frame (opt : Options) (flt : Faults) (st : St)
    (es : List (RPath × Node)) (q : RPath) (hq : ¬ tmpNamed q)
    (hk : q ∉ keysOf es) :
    lookupF (fwdFold opt flt st es).tree q = lookupF st.tree q := by
  induction es generalizing st with
  | nil => rfl
  | cons e rest ih =>
      have h1 : q ≠ e.1 := by
        intro h
        apply hk
        rw [keysOf_cons, h]
        exact List.mem_cons_self _ _
      have h2 : q ≠ tmpPath e.1 := fun h => hq (h ▸ tmpNamed_tmpPath e.1)
      have hk2 : q ∉ keysOf rest := by
        intro h
        apply hk
        rw [keysOf_cons]
        exact List.mem_cons_of_mem _ h
      rw [fwdFold_cons, ih (fwdStep opt flt st e).1 hk2]
      exact fwdStep_frame opt flt st e q h1 h2

/-- Where a file in `copyFile`'s result tree can come from: it is the
installed destination, or it was already present. -/
theorem copyFile_file_origin (opt : Options) (cp : CopyFault) (f : File)
    (rel : RPath) (t : DirTree) (q : RPath) (g : File)
    (h : lookupF (copyFile opt cp f rel t).1 q = some (Node.file g)) :
    q = rel ∨ ∃ g0, lookupF t q = some (Node.file g0) := by
  rcases copyFile_tree_cases opt cp f rel t with hsh | hsh | ⟨pm, hsh⟩ <;>
    rw [hsh] at h
  · exact Or.inr ⟨g, h⟩
  · rw [lookupF_removeF] at h
    split at h
    · exact absurd h (by simp)
    · exact Or.inr ⟨g, h⟩
  · rw [lookupF_setF] at h
    split at h
    · exact Or.inl (by rename_i hr; exact hr.symm)
    · rw [lookupF_removeF] at h
      split at h
      · exact absurd h (by simp)
      · exact Or.inr ⟨g, h⟩

theorem copyFile_file_origin_eq (opt : Options) {cp : CopyFault} {f : File}
    {rel : RPath} {t t2 : DirTree} {mu : List RPath} {w : Option Err}
    (heq : copyFile opt cp f rel t = (t2, mu, w)) (q : RPath) (g : File)
    (h : lookupF t2 q = some (Node.file g)) :
    q = rel ∨ ∃ g0, lookupF t q = some (Node.file g0) := by
  apply copyFile_file_origin opt cp f rel t q g
  rw [heq]
  exact h

/-- Where a file in the tree after one forward step can come from. -/
theorem fwdStep_file_origin (opt : Options) (flt : Faults) (st : St)
    (ent : RPath × Node) (q : RPath) (g : File) :
    lookupF (fwdStep opt flt st ent).1.tree q = some (Node.file g) →
    q = ent.1 ∨ ∃ g0, lookupF st.tree q = some (Node.file g0) := by
  unfold fwdStep
  dsimp only
  repeat' split
  all_goals intro h
  all_goals
    first
      | exact Or.inr ⟨_, h⟩
      | (rw [lookupF_setF] at h
         split at h
         · simp at h
         · exact Or.inr ⟨_, h⟩)
      | (rename_i heq
         exact copyFile_file_origin_eq opt heq q g h)

/-- Where a file in the tree after the whole forward pass comes from. -/
theorem fwdFold_file_origin (opt : Options) (flt : Faults) (st : St)
    (es : List (RPath × Node)) (q : RPath) (g : File)
    (h : lookupF (fwdFold opt flt st es).tree q = some (Node.file g)) :
    q ∈ keysOf es ∨ ∃ g0, lookupF st.tree q = some (Node.file g0) := by
  induction es generalizing st with
  | nil => exact Or.inr ⟨g, h⟩
  | cons e rest ih =>
      rw [fwdFold_cons] at h
      rcases ih _ h with hin | ⟨g0, h0⟩
      · exact Or.inl (keysOf_cons e rest ▸ List.mem_cons_of_mem _ hin)
      · rcases fwdStep_file_origin opt flt st e q g0 h0 with he | ⟨g1, h1⟩
        · refine Or.inl ?_
          rw [keysOf_cons, he]
          exact List.mem_cons_self _ _
        · exact Or.inr ⟨g1, h1⟩

theorem differ_stamped (f : File) (pm : Nat) :
    differ (infoF f) (infoF ⟨f.content, f.modTimeNs, pm, true⟩) = false := by
  simp [differ, infoF]

/-- After a fault-free forward pass over well-formed entries, every
listed regular file has a destination copy it does not differ from,
provided neither its path nor its temporary sibling is blocked by a
directory in the initial target. -/
theorem fwdFold_file (opt : Options) (flt : Faults) (st : St)
    (es : List (RPath × Node)) (rel : RPath) (f : File)
    (hff : ∀ p, flt.fwd p = noEntFaults)
    (hnd0 : (keysOf es).Nodup)
    (hcl : ∀ p ∈ keysOf es, p ≠ [] ∧ ¬ tmpNamed p)
    (hmem : (rel, Node.file f) ∈ es) (hreg : f.regular = true)
    (hnd : lookupF st.tree (tmpPath rel) ≠ some Node.dir)
    (hrd : lookupF st.tree rel ≠ some Node.dir) :
    ∃ g, lookupF (fwdFold opt flt st es).tree rel = some (Node.file g) ∧
      differ (infoF f) (infoF g) = false := by
  induction es generalizing st with
  | nil => cases hmem
  | cons e rest ih =>
      have hclrel : rel ≠ [] ∧ ¬ tmpNamed rel :=
        hcl rel (mem_keysOf _ rel (Node.file f) hmem)
      rcases List.mem_cons.mp hmem with hme | hme
      · have hhead : e = (rel, Node.file f) := hme.symm
        subst hhead
        have hnotin : rel ∉ keysOf rest := by
          have := hnd0
          rw [keysOf_cons] at this
          exact (List.nodup_cons.mp this).1
        rw [fwdFold_cons]
        rcases hl : lookupF st.tree rel with _ | n
        · obtain ⟨pm, hstep⟩ := fwdStep_copy opt flt st rel f (hff rel) hreg hnd hl
          rw [hstep, fwdFold_frame opt flt _ rest rel hclrel.2 hnotin]
          refine ⟨⟨f.content, f.modTimeNs, pm, true⟩, ?_, differ_stamped f pm⟩
          dsimp only
          rw [lookupF_setF, if_pos rfl]
        · cases n with
          | dir => exact absurd hl hrd
          | file g =>
              rcases hdif : differ (infoF f) (infoF g) with _ | _
              · rw [fwdStep_skip opt flt st rel f g (hff rel) hreg hl hdif,
                    fwdFold_frame opt flt _ rest rel hclrel.2 hnotin]
                exact ⟨g, hl, hdif⟩
              · obtain ⟨pm, hstep⟩ :=
                  fwdStep_over opt flt st rel f g (hff rel) hreg hnd hl hdif
                rw [hstep, fwdFold_frame opt flt _ rest rel hclrel.2 hnotin]
                refine ⟨⟨f.content, f.modTimeNs, pm, true⟩, ?_, differ_stamped f pm⟩
                dsimp only
                rw [lookupF_setF, if_pos rfl]
      · have hrelk : rel ∈ keysOf rest := mem_keysOf _ rel (Node.file f) hme
        have hne1 : rel ≠ e.1 := by
          intro h
          have := hnd0
          rw [keysOf_cons] at this
          exact (List.nodup_cons.mp this).1 (h ▸ hrelk)
        have hcle1 : e.1 ≠ [] ∧ ¬ tmpNamed e.1 :=
          hcl e.1 (by rw [keysOf_cons]; exact List.mem_cons_self _ _)
        have hfr1 : lookupF (fwdStep opt flt st e).1.tree rel =
            lookupF st.tree rel :=
          fwdStep_frame opt flt st e rel hne1
            (fun h => hclrel.2 (h ▸ tmpNamed_tmpPath e.1))
        have hfr2 : lookupF (fwdStep opt flt st e).1.tree (tmpPath rel) =
            lookupF st.tree (tmpPath rel) := by
          apply fwdStep_frame opt flt st e (tmpPath rel)
          · exact ne_tmpPath_of_not_tmpNamed rel e.1 hcle1.2
          · intro h
            exact hne1 (tmpPath_inj rel e.1 hclrel.1 hcle1.1 h)
        rw [fwdFold_cons]
        refine ih _ ?_ ?_ hme ?_ ?_
        · have := hnd0; rw [keysOf_cons] at this
          exact (List.nodup_cons.mp this).2
        · intro p hp
          exact hcl p (by rw [keysOf_cons]; exact List.mem_cons_of_mem _ hp)
        · rw [hfr2]; exact hnd
        · rw [hfr1]; exact hrd

/-- After a fault-free forward pass, every listed source directory has
a directory at its target path, provided no file blocks it there. -/
theorem fwdFold_dir (opt : Options) (flt : Faults) (st : St)
    (es : List (RPath × Node)) (rel : RPath)
    (hff : ∀ p, flt.fwd p = noEntFaults)
    (hnd0 : (keysOf es).Nodup)
    (hcl : ∀ p ∈ keysOf es, p ≠ [] ∧ ¬ tmpNamed p)
    (hmem : (rel, Node.dir) ∈ es)
    (hnf : ∀ g, lookupF st.tree rel ≠ some (Node.file g)) :
    lookupF (fwdFold opt flt st es).tree rel = some Node.dir := by
  induction es generalizing st with
  | nil => cases hmem
  | cons e rest ih =>
      have hclrel : rel ≠ [] ∧ ¬ tmpNamed rel :=
        hcl rel (mem_keysOf _ rel Node.dir hmem)
      rcases List.mem_cons.mp hmem with hme | hme
      · have hhead : e = (rel, Node.dir) := hme.symm
        subst hhead
        have hnotin : rel ∉ keysOf rest := by
          have := hnd0
          rw [keysOf_cons] at this
          exact (List.nodup_cons.mp this).1
        rw [fwdFold_cons]
        rcases fwdStep_dir opt flt st rel (hff rel) hnf with hstep | ⟨hl, hstep⟩
        · rw [hstep, fwdFold_frame opt flt _ rest rel hclrel.2 hnotin]
          dsimp only
          rw [lookupF_setF, if_pos rfl]
        · rw [hstep, fwdFold_frame opt flt _ rest rel hclrel.2 hnotin]
          exact hl
      · have hrelk : rel ∈ keysOf rest := mem_keysOf _ rel Node.dir hme
        have hne1 : rel ≠ e.1 := by
          intro h
          have := hnd0
          rw [keysOf_cons] at this
          exact (List.nodup_cons.mp this).1 (h ▸ hrelk)
        have hfr1 : lookupF (fwdStep opt flt st e).1.tree rel =
            lookupF st.tree rel :=
          fwdStep_frame opt flt st e rel hne1
            (fun h => hclrel.2 (h ▸ tmpNamed_tmpPath e.1))
        rw [fwdFold_cons]
        refine ih _ ?_ ?_ hme ?_
        · have := hnd0; rw [keysOf_cons] at this
          exact (List.nodup_cons.mp this).2
        · intro p hp
          exact hcl p (by rw [keysOf_cons]; exact List.mem_cons_of_mem _ hp)
        · intro g
          rw [hfr1]
          exact hnf g

/-- Number of file entries (regular or not) in a walked entry list. -/
def fileCount (es : List (RPath × Node)) : Nat :=
  es.countP (fun e => match e.2 with | Node.file _ => true | Node.dir => false)

theorem fwdStep_dir_exists (opt : Options) (flt : Faults) (st : St)
    (rel : RPath) (hfl : flt.fwd rel = noEntFaults)
    (hl : lookupF st.tree rel = some Node.dir) :
    (fwdStep opt flt st (rel, Node.dir)).1 =
      { st with muts := st.muts ++ [opt.Target ++ rel] } := by
  unfold fwdStep
  simp [hfl, noEntFaults, hl]

/-- A fault-free forward pass over a tree that is already in sync
(every listed regular file has an identical destination, every listed
directory exists) changes nothing and only counts skips: one per file
entry. -/
theorem fwdFold_synced (opt : Options) (flt : Faults) (st : St)
    (es : List (RPath × Node))
    (hff : ∀ p, flt.fwd p = noEntFaults)
    (hfile : ∀ rel f, (rel, Node.file f) ∈ es → f.regular = true →
       ∃ g, lookupF st.tree rel = some (Node.file g) ∧
         differ (infoF f) (infoF g) = false)
    (hdir : ∀ rel, (rel, Node.dir) ∈ es → lookupF st.tree rel = some Node.dir) :
    (fwdFold opt flt st es).tree = st.tree ∧
    (fwdFold opt flt st es).rep =
      { st.rep with Skipped := st.rep.Skipped + fileCount es } := by
  induction es generalizing st with
  | nil => exact ⟨rfl, by simp [fwdFold, fileCount]⟩
  | cons e rest ih =>
      rcases e with ⟨rel, n⟩
      cases n with
      | dir =>
          have hl := hdir rel (List.mem_cons_self _ _)
          rw [fwdFold_cons, fwdStep_dir_exists opt flt st rel (hff rel) hl]
          obtain ⟨iht, ihr⟩ := ih { st with muts := st.muts ++ [opt.Target ++ rel] }
            (fun r f hm hr => hfile r f (List.mem_cons_of_mem _ hm) hr)
            (fun r hm => hdir r (List.mem_cons_of_mem _ hm))
          refine ⟨iht, ?_⟩
          rw [ihr]
          have hfc : fileCount ((rel, Node.dir) :: rest) = fileCount rest := by
            simp [fileCount, List.countP_cons]
          rw [hfc]
      | file f =>
          have hstep : (fwdStep opt flt st (rel, Node.file f)).1 =
              { st with rep := { st.rep with Skipped := st.rep.Skipped + 1 } } := by
            rcases hreg : f.regular with _ | _
            · exact fwdStep_irregular opt flt st rel f (hff rel) hreg
            · obtain ⟨g, hl, hdif⟩ :=
                hfile rel f (List.mem_cons_self _ _) hreg
              exact fwdStep_skip opt flt st rel f g (hff rel) hreg hl hdif
          rw [fwdFold_cons, hstep]
          obtain ⟨iht, ihr⟩ := ih
            { st with rep := { st.rep with Skipped := st.rep.Skipped + 1 } }
            (fun r f2 hm hr => hfile r f2 (List.mem_cons_of_mem _ hm) hr)
            (fun r hm => hdir r (List.mem_cons_of_mem _ hm))
          refine ⟨iht, ?_⟩
          rw [ihr]
          have hfc : fileCount ((rel, Node.file f) :: rest) = fileCount rest + 1 := by
            simp [fileCount, List.countP_cons]
          rw [hfc]
          dsimp only
          congr 1
          omega

/-- A delete step whose entry still exists in source never changes the
target tree, no matter which faults fire. -/
theorem delStep_tree_insrc (opt : Options) (flt : Faults) (srcT : DirTree)
    (st : St) (ent : RPath × Node) (hin : lookupF srcT ent.1 ≠ none) :
    (delStep opt flt srcT st ent).1.tree = st.tree := by
  unfold delStep
  dsimp only
  repeat' split
  all_goals (try rfl)
  all_goals simp_all

/-- The delete pass leaves every path that exists in source alone. -/
theorem delFold_insrc (opt : Options) (flt : Faults) (srcT : DirTree)
    (st : St) (es : List (RPath × Node)) (q : RPath)
    (hq : lookupF srcT q ≠ none) :
    lookupF (delFold opt flt srcT st es).tree q = lookupF st.tree q := by
  induction es generalizing st with
  | nil => rfl
  | cons e rest ih =>
      rw [delFold_cons, ih (delStep opt flt srcT st e).1]
      by_cases hqe : q = e.1
      · rw [delStep_tree_insrc opt flt srcT st e (hqe ▸ hq)]
      · exact delStep_frame opt flt srcT st e q hqe

/-- The delete pass never creates a binding. -/
theorem delFold_no_add (opt : Options) (flt : Faults) (srcT : DirTree)
    (st : St) (es : List (RPath × Node)) (q : RPath)
    (h : lookupF st.tree q = none) :
    lookupF (delFold opt flt srcT st es).tree q = none := by
  induction es generalizing st with
  | nil => exact h
  | cons e rest ih =>
      rw [delFold_cons]
      apply ih
      rcases delStep_tree_cases opt flt srcT st e with hc | hc <;> rw [hc]
      · exact h
      · rw [lookupF_removeF]
        split
        · rfl
        · exact h

/-- A fault-free delete pass removes every listed target file that is
missing from source. -/
theorem delFold_removed (opt : Options) (flt : Faults) (srcT : DirTree)
    (st : St) (es : List (RPath × Node)) (rel : RPath) (f : File)
    (hdf : ∀ p, flt.del p = noDelFaults)
    (hmem : (rel, Node.file f) ∈ es)
    (habs : lookupF srcT rel = none) :
    lookupF (delFold opt flt srcT st es).tree rel = none := by
  induction es generalizing st with
  | nil => cases hmem
  | cons e rest ih =>
      rcases List.mem_cons.mp hmem with hme | hme
      · have hhead : e = (rel, Node.file f) := hme.symm
        subst hhead
        rw [delFold_cons, delStep_remove opt flt srcT st rel f (hdf rel) habs]
        apply delFold_no_add
        dsimp only
        rw [lookupF_removeF, if_pos rfl]
      · rw [delFold_cons]
        exact ih (delStep opt flt srcT st e).1 hme

/-- A fault-free delete pass over entries that all still exist in
source does nothing at all. -/
theorem delFold_keep (opt : Options) (flt : Faults) (srcT : DirTree)
    (st : St) (es : List (RPath × Node))
    (hdf : ∀ p, flt.del p = noDelFaults)
    (hin : ∀ rel f, (rel, Node.file f) ∈ es → lookupF srcT rel ≠ none) :
    delFold opt flt srcT st es = st := by
  induction es generalizing st with
  | nil => rfl
  | cons e rest ih =>
      rcases e with ⟨rel, n⟩
      have hstep : (delStep opt flt srcT st (rel, n)).1 = st := by
        cases n with
        | dir => exact delStep_keep opt flt srcT st rel Node.dir (hdf rel) (Or.inl rfl)
        | file f =>
            exact delStep_keep opt flt srcT st rel (Node.file f) (hdf rel)
              (Or.inr (hin rel f (List.mem_cons_self _ _)))
      rw [delFold_cons, hstep]
      exact ih st (fun r f hm => hin r f (List.mem_cons_of_mem _ hm))

/-! ### Concrete fixtures for witnesses and counterexamples -/

def exF : File := ⟨[104, 105], 1500000000, 420, true⟩

def exG : File := ⟨[9, 9, 9], 2500000000, 493, true⟩

def exIrr : File := ⟨[], 0, 0, false⟩

def exOpt : Options := ⟨["srcroot"], ["dstroot"], false⟩

def exOptD : Options := ⟨["srcroot"], ["dstroot"], true⟩

def quietFaults : Faults :=
  { fwd := fun _ => noEntFaults, del := fun _ => noDelFaults
    rootS := none, rootT := none, dirInfo := ⟨4096, 0⟩, now := 77 }

def rootFailFaults : Faults := { quietFaults with rootS := some "walk src" }

/-- All-clear oracle: no injected fault anywhere. -/
def FaultFree (flt : Faults) : Prop :=
  (∀ p, flt.fwd p = noEntFaults) ∧ (∀ p, flt.del p = noDelFaults) ∧
  flt.rootS = none ∧ flt.rootT = none

theorem quietFaults_FaultFree : FaultFree quietFaults :=
  ⟨fun _ => rfl, fun _ => rfl, rfl, rfl⟩

/-! ### The claims -/

/-- C2: the change detector reports "identical" exactly when the sizes
agree and the modification timestamps truncated to whole seconds agree;
in particular it reports "differs" whenever the sizes disagree. -/
theorem C2_differ_contract (S D : SInfo) :
    differ S D = false ↔
      (S.size = D.size ∧
       truncateToSeconds S.modTimeNs = truncateToSeconds D.modTimeNs) := by
  unfold differ
  by_cases hs : S.size = D.size
  · simp [hs]
  · simp [hs]

/-- C9: `addErr` ignores a nil error and otherwise appends at the end
of the error sequence without touching anything else; and across whole
engine passes (any faults) the counters never decrease and the error
sequence only ever grows at the end. -/
theorem C9_report_append_only :
    (∀ r : Report, r.addErr none = r) ∧
    (∀ (r : Report) (e : Err),
       r.addErr (some e) = { r with Errors := r.Errors ++ [e] }) ∧
    (∀ (opt : Options) (flt : Faults) (st : St) (es : List (RPath × Node)),
       repGrows st.rep (fwdFold opt flt st es).rep) ∧
    (∀ (opt : Options) (flt : Faults) (srcT : DirTree) (st : St)
       (es : List (RPath × Node)),
       repGrows st.rep (delFold opt flt srcT st es).rep) :=
  ⟨fun _ => rfl, fun _ _ => rfl, fwdFold_repGrows, delFold_repGrows⟩

/-- C1: a `copyFile` invocation that fails at the streaming-copy,
close, timestamp-set, or rename step returns an error, removes its
temporary file, and leaves the destination binding exactly as it was.
(The temporary path must not be blocked by a directory, or the failure
would instead occur at temp-file creation.) -/
theorem C1_copyFile_failure_cleanup (opt : Options) (cp : CopyFault)
    (f : File) (rel : RPath) (t : DirTree)
    (hnd : lookupF t (tmpPath rel) ≠ some Node.dir)
    (hcp : cp = CopyFault.copyF ∨ cp = CopyFault.closeF ∨
           cp = CopyFault.chtimesF ∨ cp = CopyFault.renameF ∨
           (cp = CopyFault.noFault ∧ lookupF t rel = some Node.dir)) :
    ∃ e, (copyFile opt cp f rel t).2.2 = some e ∧
      lookupF (copyFile opt cp f rel t).1 rel = lookupF t rel ∧
      lookupF (copyFile opt cp f rel t).1 (tmpPath rel) = none := by
  obtain ⟨e, heq⟩ := copyFile_lateFail opt cp f rel t hnd hcp
  refine ⟨e, ?_, ?_, ?_⟩ <;> rw [heq]
  · dsimp only
    rw [lookupF_removeF, if_neg (tmpPath_ne_self rel)]
  · dsimp only
    rw [lookupF_removeF, if_pos rfl]

theorem C1_copyFile_failure_cleanup_witness :
    ∃ e, (copyFile exOpt CopyFault.copyF exF ["a"] []).2.2 = some e ∧
      lookupF (copyFile exOpt CopyFault.copyF exF ["a"] []).1 ["a"] =
        lookupF [] ["a"] ∧
      lookupF (copyFile exOpt CopyFault.copyF exF ["a"] []).1
        (tmpPath ["a"]) = none :=
  C1_copyFile_failure_cleanup exOpt CopyFault.copyF exF ["a"] []
    (by simp [lookupF]) (Or.inl rfl)

/-- C5: each file visited in the forward pass moves the report by
exactly one of the four outcomes (copy, overwrite, skip, error), and
each file visited in the delete pass by exactly one of delete or error,
or nothing when it still exists in source — each disjunct pins every
field of the new report, so the outcomes are pairwise exclusive. -/
theorem C5_per_file_outcomes (opt : Options) (flt : Faults)
    (srcT : DirTree) (st : St) (rel : RPath) (f : File) :
    (((fwdStep opt flt st (rel, Node.file f)).1.rep =
        { st.rep with Copied := st.rep.Copied + 1 }) ∨
     ((fwdStep opt flt st (rel, Node.file f)).1.rep =
        { st.rep with Overwritten := st.rep.Overwritten + 1 }) ∨
     ((fwdStep opt flt st (rel, Node.file f)).1.rep =
        { st.rep with Skipped := st.rep.Skipped + 1 }) ∨
     (∃ e, (fwdStep opt flt st (rel, Node.file f)).1.rep =
        { st.rep with Errors := st.rep.Errors ++ [e] })) ∧
    (((delStep opt flt srcT st (rel, Node.file f)).1.rep =
        { st.rep with Deleted := st.rep.Deleted + 1 }) ∨
     (∃ e, (delStep opt flt srcT st (rel, Node.file f)).1.rep =
        { st.rep with Errors := st.rep.Errors ++ [e] }) ∨
     ((delStep opt flt srcT st (rel, Node.file f)).1.rep = st.rep ∧
        lookupF srcT rel ≠ none)) :=
  ⟨fwdStep_file_outcome opt flt st rel f,
   delStep_file_outcome opt flt srcT st rel f⟩

/-- If the source root itself cannot be read, the error is recorded in
the report (first, before anything the delete pass may add) instead of
being raised. -/
theorem Sync_rootS_recorded (opt : Options) (flt : Faults)
    (srcT tgt0 : DirTree) (e : Err) (h : flt.rootS = some e) :
    ∃ tail, (Sync opt flt srcT tgt0).rep.Errors = e :: tail := by
  unfold Sync walkPass
  rw [h]
  dsimp only
  by_cases hdm : opt.DeleteMissing
  · simp only [hdm, if_true]
    rcases hT : flt.rootT with _ | e2
    · dsimp only
      rw [walkAux_eq_foldl _ (delStep_snd opt flt srcT)]
      dsimp only
      have hg := delFold_repGrows opt flt srcT
        { tree := tgt0, rep := Report.addErr {} (some e), muts := [] } tgt0
      obtain ⟨tail, htail⟩ := hg.2.2.2.2
      refine ⟨tail, ?_⟩
      rw [addErr_none]
      rw [delFold] at htail
      rw [← htail]
      rfl
    · exact ⟨[e2], rfl⟩
  · simp only [hdm, if_false]
    exact ⟨[], rfl⟩

/-- C3: neither walk callback ever returns a non-nil error, so each
`WalkDir` pass visits every entry (it is a plain fold) and returns
none; `Sync` therefore always completes with a report, and even a
failure of the root traversal call itself is recorded in the report
rather than raised. -/
theorem C3_no_error_propagation (opt : Options) (flt : Faults) :
    (∀ (st : St) (es : List (RPath × Node)),
       walkAux (fwdStep opt flt) st es =
         (es.foldl (fun s e => (fwdStep opt flt s e).1) st, none)) ∧
    (∀ (srcT : DirTree) (st : St) (es : List (RPath × Node)),
       walkAux (delStep opt flt srcT) st es =
         (es.foldl (fun s e => (delStep opt flt srcT s e).1) st, none)) ∧
    (∀ (flt2 : Faults) (srcT tgt0 : DirTree) (e : Err),
       flt2.rootS = some e →
       ∃ tail, (Sync opt flt2 srcT tgt0).rep.Errors = e :: tail) :=
  ⟨fun st es => walkAux_eq_foldl _ (fwdStep_snd opt flt) st es,
   fun srcT st es => walkAux_eq_foldl _ (delStep_snd opt flt srcT) st es,
   fun flt2 srcT tgt0 e h => Sync_rootS_recorded opt flt2 srcT tgt0 e h⟩

theorem C3_no_error_propagation_witness :
    ∃ tail,
      (Sync exOpt rootFailFaults [(["a"], Node.file exF)] []).rep.Errors =
        "walk src" :: tail :=
  (C3_no_error_propagation exOpt quietFaults).2.2 rootFailFaults
    [(["a"], Node.file exF)] [] "walk src" rfl

theorem tmpPath_dropLast (p : RPath) :
    (tmpPath p).dropLast = p.dropLast := by
  induction p with
  | nil => rfl
  | cons x xs ih =>
      cases xs with
      | nil => rfl
      | cons y rest =>
          have hne : tmpPath (y :: rest) ≠ [] := tmpPath_cons_ne_nil (y :: rest)
          simp only [tmpPath]
          rw [List.dropLast_cons_of_ne_nil hne, List.dropLast_cons_of_ne_nil (by simp)]
          rw [ih]

/-- A one-component path whose name is shorter than the reserved
suffix cannot carry it. -/
theorem not_tmpNamed_short (s : String) (h : s.length < 5) :
    ¬ tmpNamed [s] := by
  rintro ⟨q, u, hq⟩
  rcases q with _ | ⟨z, zs⟩
  · simp at hq
    have hl := congrArg String.length hq
    rw [String.length_append] at hl
    have h5 : (".tmp~" : String).length = 5 := rfl
    omega
  · have hl := congrArg List.length hq
    simp at hl

/-- C8 (amended): the temporary file is a sibling of its destination —
same directory, name extended by the reserved suffix — and, provided no
real mirrored path itself uses the reserved `.tmp~` suffix, it never
collides with any destination path produced by the run. -/
theorem C8_tmp_sibling_no_collision (srcT : DirTree) (rel1 rel2 : RPath)
    (_hm1 : rel1 ∈ keysOf srcT) (hm2 : rel2 ∈ keysOf srcT)
    (hres : ∀ p ∈ keysOf srcT, ¬ tmpNamed p) :
    (tmpPath rel1).dropLast = rel1.dropLast ∧
    tmpPath rel1 ≠ rel2 :=
  ⟨tmpPath_dropLast rel1,
   ne_tmpPath_of_not_tmpNamed rel1 rel2 (hres rel2 hm2)⟩

def exSrcC8 : DirTree :=
  [(["a"], Node.file exF), (["b"], Node.file exG)]

theorem C8_tmp_sibling_no_collision_witness :
    (tmpPath ["a"]).dropLast = (["a"] : RPath).dropLast ∧
    tmpPath ["a"] ≠ ["b"] := by
  apply C8_tmp_sibling_no_collision exSrcC8 ["a"] ["b"]
  · simp [exSrcC8, keysOf]
  · simp [exSrcC8, keysOf]
  · intro p hp
    simp [exSrcC8, keysOf] at hp
    rcases hp with h | h <;> subst h
    · exact not_tmpNamed_short "a" (by decide)
    · exact not_tmpNamed_short "b" (by decide)

/-- C8 counterexample source tree: a real file name that itself uses
the reserved suffix. -/
def exSrcC8bad : DirTree :=
  [(["a"], Node.file exF), (["a.tmp~"], Node.file exG)]

/-- C8 is false as stated: with a source file literally named
`a.tmp~`, the temporary path used while writing destination `a` equals
the other real destination path of the same run. -/
theorem C8_counterexample :
    ["a"] ∈ keysOf exSrcC8bad ∧ ["a.tmp~"] ∈ keysOf exSrcC8bad ∧
    (["a"] : RPath) ≠ ["a.tmp~"] ∧
    tmpPath ["a"] = ["a.tmp~"] := by
  refine ⟨?_, ?_, ?_, ?_⟩ <;> decide

/-- The absolute paths `copyFile` passes to mutating filesystem calls. -/
theorem copyFile_muts_cases (opt : Options) (cp : CopyFault) (f : File)
    (rel : RPath) (t : DirTree) :
    (copyFile opt cp f rel t).2.1 = [opt.Target ++ rel.dropLast] ∨
    (copyFile opt cp f rel t).2.1 =
      [opt.Target ++ rel.dropLast, opt.Target ++ tmpPath rel] ∨
    (copyFile opt cp f rel t).2.1 =
      [opt.Target ++ rel.dropLast, opt.Target ++ tmpPath rel,
       opt.Target ++ rel] := by
  rcases htmp : lookupF t (tmpPath rel) with _ | ntmp | old
  case some.dir =>
    cases cp <;> simp [copyFile, htmp]
  all_goals
    cases cp <;>
      simp [copyFile, htmp] <;>
      rcases hrel : lookupF t rel with _ | nrel | g <;>
      simp [hrel]

theorem copyFile_muts_under (opt : Options) {cp : CopyFault} {f : File}
    {rel : RPath} {t t2 : DirTree} {mu : List RPath} {w : Option Err}
    (heq : copyFile opt cp f rel t = (t2, mu, w)) (p : RPath)
    (hp : p ∈ mu) : ∃ r, p = opt.Target ++ r := by
  have hc := copyFile_muts_cases opt cp f rel t
  rw [heq] at hc
  dsimp only at hc
  rcases hc with hc | hc | hc <;> subst hc <;> simp at hp
  · exact ⟨rel.dropLast, hp⟩
  · rcases hp with h | h
    · exact ⟨rel.dropLast, h⟩
    · exact ⟨tmpPath rel, h⟩
  · rcases hp with h | h | h
    · exact ⟨rel.dropLast, h⟩
    · exact ⟨tmpPath rel, h⟩
    · exact ⟨rel, h⟩

/-- One forward step only adds target-rooted paths to the trace. -/
theorem fwdStep_muts_under (opt : Options) (flt : Faults) (st : St)
    (ent : RPath × Node) (p : RPath)
    (hp : p ∈ (fwdStep opt flt st ent).1.muts) :
    p ∈ st.muts ∨ ∃ r, p = opt.Target ++ r := by
  revert hp
  unfold fwdStep
  dsimp only
  repeat' split
  all_goals intro hp
  all_goals (try exact Or.inl hp)
  all_goals
    first
      | (rcases List.mem_append.mp hp with h | h
         · exact Or.inl h
         · simp at h
           exact Or.inr ⟨ent.1, h⟩)
      | (rename_i heq
         rcases List.mem_append.mp hp with h | h
         · exact Or.inl h
         · exact Or.inr (copyFile_muts_under opt heq p h))

/-- One delete step only adds target-rooted paths to the trace. -/
theorem delStep_muts_under (opt : Options) (flt : Faults) (srcT : DirTree)
    (st : St) (ent : RPath × Node) (p : RPath)
    (hp : p ∈ (delStep opt flt srcT st ent).1.muts) :
    p ∈ st.muts ∨ ∃ r, p = opt.Target ++ r := by
  revert hp
  unfold delStep
  dsimp only
  repeat' split
  all_goals intro hp
  all_goals (try exact Or.inl hp)
  all_goals
    rcases List.mem_append.mp hp with h | h
    · exact Or.inl h
    · simp at h
      exact Or.inr ⟨ent.1, h⟩

/-- An aborting or non-aborting walk only adds trace entries its
callback adds. -/
theorem walkAux_muts (f : St → RPath × Node → St × Option Err)
    (P : RPath → Prop)
    (hf : ∀ s b p, p ∈ (f s b).1.muts → p ∈ s.muts ∨ P p)
    (st : St) (es : List (RPath × Node)) (p : RPath)
    (hp : p ∈ (walkAux f st es).1.muts) : p ∈ st.muts ∨ P p := by
  induction es generalizing st with
  | nil => exact Or.inl hp
  | cons e rest ih =>
      revert hp
      unfold walkAux
      rcases hfe : f st e with ⟨s1, w⟩
      cases w with
      | none =>
          intro hp
          rcases ih s1 hp with h | h
          · have := hf st e p (by rw [hfe]; exact h)
            exact this
          · exact Or.inr h
      | some e2 =>
          intro hp
          exact hf st e p (by rw [hfe]; exact hp)

theorem walkPass_muts (rootErr : Option Err)
    (f : St → RPath × Node → St × Option Err) (P : RPath → Prop)
    (hf : ∀ s b p, p ∈ (f s b).1.muts → p ∈ s.muts ∨ P p)
    (st : St) (es : List (RPath × Node)) (p : RPath)
    (hp : p ∈ (walkPass rootErr f st es).muts) : p ∈ st.muts ∨ P p := by
  revert hp
  unfold walkPass
  cases rootErr with
  | some e => exact fun hp => Or.inl hp
  | none =>
      rcases hw : walkAux f st es with ⟨s1, w⟩
      intro hp
      apply walkAux_muts f P hf st es p
      rw [hw]
      exact hp

/-- Every path `Sync` passes to a mutating filesystem call lies under
the target root (it is the target root followed by a relative path). -/
theorem Sync_muts_under (opt : Options) (flt : Faults)
    (srcT tgt0 : DirTree) (p : RPath)
    (hp : p ∈ (Sync opt flt srcT tgt0).muts) :
    ∃ r, p = opt.Target ++ r := by
  revert hp
  unfold Sync
  dsimp only
  by_cases hdm : opt.DeleteMissing
  · simp only [hdm, if_true]
    intro hp
    rcases walkPass_muts flt.rootT (delStep opt flt srcT) _
      (delStep_muts_under opt flt srcT) _ _ p hp with h | h
    · rcases walkPass_muts flt.rootS (fwdStep opt flt) _
        (fwdStep_muts_under opt flt) _ _ p h with h2 | h2
      · simp at h2
      · exact h2
    · exact h
  · simp only [hdm, if_false]
    intro hp
    rcases walkPass_muts flt.rootS (fwdStep opt flt) _
      (fwdStep_muts_under opt flt) _ _ p hp with h | h
    · simp at h
    · exact h

/-- With disjoint roots, a target-rooted path is never under source. -/
theorem not_src_under (src tgt : RPath) (r : RPath)
    (h1 : ¬ src <+: tgt) (h2 : ¬ tgt <+: src) : ¬ src <+: tgt ++ r := by
  intro hsp
  rcases le_or_lt src.length tgt.length with hle | hlt
  · exact h1 (List.prefix_of_prefix_length_le hsp (List.prefix_append tgt r) hle)
  · exact h2 (List.prefix_of_prefix_length_le (List.prefix_append tgt r) hsp
      (Nat.le_of_lt hlt))

/-- C10 (amended): provided the source and target roots do not overlap
(neither is a path prefix of the other), every path the engine passes
to a mutating filesystem call lies under the target root and never
under the source root. -/
theorem C10_source_read_only (opt : Options) (flt : Faults)
    (srcT tgt0 : DirTree) (p : RPath)
    (hp : p ∈ (Sync opt flt srcT tgt0).muts)
    (h1 : ¬ opt.Source <+: opt.Target) (h2 : ¬ opt.Target <+: opt.Source) :
    opt.Target <+: p ∧ ¬ opt.Source <+: p := by
  obtain ⟨r, hr⟩ := Sync_muts_under opt flt srcT tgt0 p hp
  subst hr
  exact ⟨List.prefix_append _ _, not_src_under opt.Source opt.Target r h1 h2⟩

theorem C10_source_read_only_witness :
    (exOpt.Target <+: ["dstroot", "a"]) ∧
    ¬ exOpt.Source <+: ["dstroot", "a"] :=
  C10_source_read_only exOpt quietFaults [(["a"], Node.file exF)] []
    ["dstroot", "a"] (by decide) (by decide) (by decide)

/-- Overlapping roots: the target root sits inside the source root. -/
def exOptNested : Options := ⟨["a"], ["a", "b"], false⟩

/-- C10 is false as stated: with the target root inside the source
root, the run writes a path that lies under the source root. -/
theorem C10_counterexample :
    (["a"] : RPath) <+: ["a", "b", "f"] ∧
    ["a", "b", "f"] ∈
      (Sync exOptNested quietFaults [(["f"], Node.file exF)] []).muts :=
  ⟨by decide, by decide⟩

/-! ### Claim C6: flag-false runs never touch target-only files -/

theorem lookup_none_not_mem_keysOf (t : DirTree) (q : RPath)
    (h : lookupF t q = none) : q ∉ keysOf t := by
  intro hq
  obtain ⟨a, ha, hfst⟩ := List.mem_map.mp hq
  exact mem_lookupF_ne_none t q a.2 (by rw [← hfst]; exact ha) h

/-- No branch of a forward step touches the `Deleted` counter. -/
theorem fwdStep_deleted (opt : Options) (flt : Faults) (st : St)
    (ent : RPath × Node) :
    (fwdStep opt flt st ent).1.rep.Deleted = st.rep.Deleted := by
  unfold fwdStep
  dsimp only
  repeat' split
  all_goals rfl

theorem fwdFold_deleted (opt : Options) (flt : Faults) (st : St)
    (es : List (RPath × Node)) :
    (fwdFold opt flt st es).rep.Deleted = st.rep.Deleted := by
  induction es generalizing st with
  | nil => rfl
  | cons e rest ih =>
      rw [fwdFold_cons, ih]
      exact fwdStep_deleted opt flt st e

/-- Generalized forward-pass frame: a path that is neither a listed
source path nor the temporary sibling of one is untouched. -/
theorem fwdFold_frame2 (opt : Options) (flt : Faults) (st : St)
    (es : List (RPath × Node)) (q : RPath)
    (hk : ∀ r ∈ keysOf es, q ≠ r ∧ q ≠ tmpPath r) :
    lookupF (fwdFold opt flt st es).tree q = lookupF st.tree q := by
  induction es generalizing st with
  | nil => rfl
  | cons e rest ih =>
      have hh := hk e.1 (by rw [keysOf_cons]; exact List.mem_cons_self _ _)
      rw [fwdFold_cons,
          ih (fwdStep opt flt st e).1
            (fun r hr => hk r (by rw [keysOf_cons]; exact List.mem_cons_of_mem _ hr))]
      exact fwdStep_frame opt flt st e q hh.1 hh.2

/-- With the delete flag off, a run is the forward pass alone: it never
deletes anything and leaves alone every path that is neither a source
path nor the temporary sibling of one. -/
theorem Sync_flag_false (opt : Options) (flt : Faults)
    (srcT tgt0 : DirTree) (q : RPath)
    (hdm : opt.DeleteMissing = false)
    (hk : ∀ r ∈ keysOf srcT, q ≠ r ∧ q ≠ tmpPath r) :
    (Sync opt flt srcT tgt0).rep.Deleted = 0 ∧
    lookupF (Sync opt flt srcT tgt0).tree q = lookupF tgt0 q := by
  unfold Sync walkPass
  simp only [hdm, if_false]
  rcases hS : flt.rootS with _ | e
  · dsimp only
    rw [walkAux_eq_foldl _ (fwdStep_snd opt flt)]
    dsimp only
    rw [addErr_none]
    constructor
    · exact fwdFold_deleted opt flt ⟨tgt0, {}, []⟩ srcT
    · exact fwdFold_frame2 opt flt ⟨tgt0, {}, []⟩ srcT q hk
  · exact ⟨rfl, rfl⟩

theorem syncIter_flag_false_frame (opt : Options) (fs : Nat → Faults)
    (srcT : DirTree) (q : RPath)
    (hdm : opt.DeleteMissing = false)
    (hk : ∀ r ∈ keysOf srcT, q ≠ r ∧ q ≠ tmpPath r) :
    ∀ (k : Nat) (t : DirTree),
      lookupF (syncIter opt fs srcT k t) q = lookupF t q := by
  intro k
  induction k with
  | zero => intro t; rfl
  | succ n ih =>
      intro t
      unfold syncIter
      rw [ih (Sync opt (fs n) srcT t).tree]
      exact (Sync_flag_false opt (fs n) srcT t q hdm hk).2

/-- C6 (amended): with delete-missing off, no run ever deletes
(`Deleted` stays 0 under any fault schedule), and a target-only file is
untouched by any number of runs — provided its path is not the
reserved temporary sibling (`<name>.tmp~`) of some source path. The
proviso is forced: the atomic writer truncates and renames away such a
path while copying its base name. -/
theorem C6_flag_false_target_only (opt : Options) (flt : Faults)
    (srcT tgt0 : DirTree) (rel : RPath)
    (hdm : opt.DeleteMissing = false)
    (honly : lookupF srcT rel = none)
    (hres : ∀ r ∈ keysOf srcT, tmpPath r ≠ rel) :
    (Sync opt flt srcT tgt0).rep.Deleted = 0 ∧
    lookupF (Sync opt flt srcT tgt0).tree rel = lookupF tgt0 rel ∧
    (∀ (fs : Nat → Faults) (k : Nat),
       lookupF (syncIter opt fs srcT k tgt0) rel = lookupF tgt0 rel) := by
  have hk : ∀ r ∈ keysOf srcT, rel ≠ r ∧ rel ≠ tmpPath r := by
    intro r hr
    constructor
    · intro h
      exact lookup_none_not_mem_keysOf srcT rel honly (h ▸ hr)
    · intro h
      exact hres r hr h.symm
  obtain ⟨hd, hl⟩ := Sync_flag_false opt flt srcT tgt0 rel hdm hk
  exact ⟨hd, hl, fun fs k => syncIter_flag_false_frame opt fs srcT rel hdm hk k tgt0⟩

theorem C6_flag_false_target_only_witness :
    (Sync exOpt quietFaults [(["x"], Node.file exF)]
       [(["only"], Node.file exG)]).rep.Deleted = 0 ∧
    lookupF (Sync exOpt quietFaults [(["x"], Node.file exF)]
       [(["only"], Node.file exG)]).tree ["only"] =
      lookupF [(["only"], Node.file exG)] ["only"] ∧
    (∀ (fs : Nat → Faults) (k : Nat),
       lookupF (syncIter exOpt fs [(["x"], Node.file exF)] k
         [(["only"], Node.file exG)]) ["only"] =
       lookupF [(["only"], Node.file exG)] ["only"]) :=
  C6_flag_false_target_only exOpt quietFaults [(["x"], Node.file exF)]
    [(["only"], Node.file exG)] ["only"] rfl rfl (by decide)

/-- C6 is false as stated: with delete-missing off, a target-only file
whose name is the reserved temporary sibling of a copied source file is
destroyed by the run (truncated and renamed onto the destination), even
though `Deleted` stays 0. -/
theorem C6_counterexample :
    exOpt.DeleteMissing = false ∧
    lookupF [(["b.tmp~"], Node.file exG)] ["b.tmp~"] =
      some (Node.file exG) ∧
    lookupF [(["b"], Node.file exF)] ["b.tmp~"] = none ∧
    lookupF (Sync exOpt quietFaults [(["b"], Node.file exF)]
      [(["b.tmp~"], Node.file exG)]).tree ["b.tmp~"] = none := by
  refine ⟨rfl, rfl, rfl, by decide⟩

/-! ### Claim C7: new files are copied byte- and mtime-identically -/

/-- A fault-free forward pass installs, at the path of a listed regular
file with no pre-existing destination, a regular file with exactly the
source's bytes and modification time. -/
theorem fwdFold_file_new (opt : Options) (flt : Faults) (st : St)
    (es : List (RPath × Node)) (rel : RPath) (f : File)
    (hff : ∀ p, flt.fwd p = noEntFaults)
    (hnd0 : (keysOf es).Nodup)
    (hcl : ∀ p ∈ keysOf es, p ≠ [] ∧ ¬ tmpNamed p)
    (hmem : (rel, Node.file f) ∈ es) (hreg : f.regular = true)
    (hnd : lookupF st.tree (tmpPath rel) ≠ some Node.dir)
    (habs : lookupF st.tree rel = none) :
    ∃ pm, lookupF (fwdFold opt flt st es).tree rel =
      some (Node.file ⟨f.content, f.modTimeNs, pm, true⟩) := by
  induction es generalizing st with
  | nil => cases hmem
  | cons e rest ih =>
      have hclrel : rel ≠ [] ∧ ¬ tmpNamed rel :=
        hcl rel (mem_keysOf _ rel (Node.file f) hmem)
      rcases List.mem_cons.mp hmem with hme | hme
      · have hhead : e = (rel, Node.file f) := hme.symm
        subst hhead
        have hnotin : rel ∉ keysOf rest := by
          have := hnd0
          rw [keysOf_cons] at this
          exact (List.nodup_cons.mp this).1
        rw [fwdFold_cons]
        obtain ⟨pm, hstep⟩ := fwdStep_copy opt flt st rel f (hff rel) hreg hnd habs
        rw [hstep, fwdFold_frame opt flt _ rest rel hclrel.2 hnotin]
        refine ⟨pm, ?_⟩
        dsimp only
        rw [lookupF_setF, if_pos rfl]
      · have hrelk : rel ∈ keysOf rest := mem_keysOf _ rel (Node.file f) hme
        have hne1 : rel ≠ e.1 := by
          intro h
          have := hnd0
          rw [keysOf_cons] at this
          exact (List.nodup_cons.mp this).1 (h ▸ hrelk)
        have hcle1 : e.1 ≠ [] ∧ ¬ tmpNamed e.1 :=
          hcl e.1 (by rw [keysOf_cons]; exact List.mem_cons_self _ _)
        have hfr1 : lookupF (fwdStep opt flt st e).1.tree rel =
            lookupF st.tree rel :=
          fwdStep_frame opt flt st e rel hne1
            (fun h => hclrel.2 (h ▸ tmpNamed_tmpPath e.1))
        have hfr2 : lookupF (fwdStep opt flt st e).1.tree (tmpPath rel) =
            lookupF st.tree (tmpPath rel) := by
          apply fwdStep_frame opt flt st e (tmpPath rel)
          · exact ne_tmpPath_of_not_tmpNamed rel e.1 hcle1.2
          · intro h
            exact hne1 (tmpPath_inj rel e.1 hclrel.1 hcle1.1 h)
        rw [fwdFold_cons]
        refine ih _ ?_ ?_ hme ?_ ?_
        · have := hnd0; rw [keysOf_cons] at this
          exact (List.nodup_cons.mp this).2
        · intro p hp
          exact hcl p (by rw [keysOf_cons]; exact List.mem_cons_of_mem _ hp)
        · rw [hfr2]; exact hnd
        · rw [hfr1]; exact habs

/-- C7 (amended): under the usual wellformedness of a walked source
tree (distinct, non-root paths avoiding the reserved suffix), a
fault-free run installs at the path of every regular source file with
no pre-existing destination a byte-identical copy carrying exactly the
source's modification time (hence also equal at second resolution) —
provided no directory blocks the reserved temporary path — and the
visit of that file increments `Copied` by exactly one. -/
theorem C7_copy_new_file (opt : Options) (flt : Faults)
    (srcT tgt0 : DirTree) (rel : RPath) (f : File)
    (hff : FaultFree flt)
    (hnd0 : (keysOf srcT).Nodup)
    (hcl : ∀ p ∈ keysOf srcT, p ≠ [] ∧ ¬ tmpNamed p)
    (hmem : (rel, Node.file f) ∈ srcT) (hreg : f.regular = true)
    (habs : lookupF tgt0 rel = none)
    (hnd : lookupF tgt0 (tmpPath rel) ≠ some Node.dir) :
    (∃ pm, lookupF (Sync opt flt srcT tgt0).tree rel =
       some (Node.file ⟨f.content, f.modTimeNs, pm, true⟩)) ∧
    (∀ st : St, lookupF st.tree rel = none →
       lookupF st.tree (tmpPath rel) ≠ some Node.dir →
       (fwdStep opt flt st (rel, Node.file f)).1.rep.Copied =
         st.rep.Copied + 1) := by
  constructor
  · rw [Sync_eq opt flt srcT tgt0 hff.2.2.1 hff.2.2.2]
    have hnew := fwdFold_file_new opt flt ⟨tgt0, {}, []⟩ srcT rel f hff.1
      hnd0 hcl hmem hreg hnd habs
    by_cases hdm : opt.DeleteMissing
    · simp only [hdm, if_true]
      rw [delFold_insrc opt flt srcT _ _ rel
        (mem_lookupF_ne_none srcT rel (Node.file f) hmem)]
      exact hnew
    · simp only [hdm, if_false]
      exact hnew
  · intro st habs2 hnd2
    obtain ⟨pm, hstep⟩ := fwdStep_copy opt flt st rel f (hff.1 rel) hreg hnd2 habs2
    rw [hstep]

theorem C7_copy_new_file_witness :
    (∃ pm, lookupF (Sync exOpt quietFaults [(["n"], Node.file exF)] []).tree
       ["n"] = some (Node.file ⟨exF.content, exF.modTimeNs, pm, true⟩)) ∧
    (∀ st : St, lookupF st.tree ["n"] = none →
       lookupF st.tree (tmpPath ["n"]) ≠ some Node.dir →
       (fwdStep exOpt quietFaults st (["n"], Node.file exF)).1.rep.Copied =
         st.rep.Copied + 1) :=
  C7_copy_new_file exOpt quietFaults [(["n"], Node.file exF)] [] ["n"] exF
    quietFaults_FaultFree (by decide)
    (by
      intro p hp
      simp [keysOf] at hp
      subst hp
      exact ⟨by decide, not_tmpNamed_short "n" (by decide)⟩)
    (by decide) rfl rfl (by decide)

/-- C7 is false as stated: a directory sitting at the reserved
temporary path (`f.tmp~`) makes every attempt to copy the new file `f`
fail at temp-file creation, so after the run the destination is still
absent and `Copied` is 0, with the failure only recorded as an error. -/
theorem C7_counterexample :
    (["f"], Node.file exF) ∈ [(["f"], Node.file exF)] ∧
    exF.regular = true ∧
    lookupF [(["f.tmp~"], Node.dir)] ["f"] = none ∧
    lookupF (Sync exOpt quietFaults [(["f"], Node.file exF)]
      [(["f.tmp~"], Node.dir)]).tree ["f"] = none ∧
    (Sync exOpt quietFaults [(["f"], Node.file exF)]
      [(["f.tmp~"], Node.dir)]).rep.Copied = 0 := by
  refine ⟨by decide, rfl, rfl, by decide, by decide⟩

/-! ### Claim C4: idempotence machinery -/

theorem mem_keysOf_setF (t : DirTree) (p q : RPath) (n : Node)
    (h : q ∈ keysOf (setF t p n)) : q ∈ keysOf t ∨ q = p := by
  induction t with
  | nil =>
      rw [show setF [] p n = [(p, n)] from rfl] at h
      rw [show keysOf [(p, n)] = [p] from rfl] at h
      exact Or.inr (by simpa using h)
  | cons a rest ih =>
      obtain ⟨ap, an⟩ := a
      by_cases hap : ap = p
      · subst hap
        rw [show setF ((ap, an) :: rest) ap n = (ap, n) :: rest from by
          simp [setF]] at h
        rw [keysOf_cons] at h
        rw [keysOf_cons]
        exact Or.inl h
      · rw [show setF ((ap, an) :: rest) p n = (ap, an) :: setF rest p n from by
          simp [setF, hap]] at h
        rw [keysOf_cons] at h
        rcases List.mem_cons.mp h with h2 | h2
        · subst h2
          exact Or.inl (by rw [keysOf_cons]; exact List.mem_cons_self _ _)
        · rcases ih h2 with h3 | h3
          · exact Or.inl (by rw [keysOf_cons]; exact List.mem_cons_of_mem _ h3)
          · exact Or.inr h3

theorem keysOf_setF_nodup (t : DirTree) (p : RPath) (n : Node)
    (h : (keysOf t).Nodup) : (keysOf (setF t p n)).Nodup := by
  induction t with
  | nil => simp [setF, keysOf]
  | cons a rest ih =>
      obtain ⟨ap, an⟩ := a
      rw [keysOf_cons] at h
      obtain ⟨hnin, hnd⟩ := List.nodup_cons.mp h
      by_cases hap : ap = p
      · subst hap
        rw [show setF ((ap, an) :: rest) ap n = (ap, n) :: rest from by
          simp [setF]]
        rw [keysOf_cons]
        exact List.nodup_cons.mpr ⟨hnin, hnd⟩
      · rw [show setF ((ap, an) :: rest) p n = (ap, an) :: setF rest p n from by
          simp [setF, hap]]
        rw [keysOf_cons]
        refine List.nodup_cons.mpr ⟨?_, ih hnd⟩
        intro hin
        rcases mem_keysOf_setF rest p ap n hin with h2 | h2
        · exact hnin h2
        · exact hap h2

theorem keysOf_removeF_sublist (t : DirTree) (p : RPath) :
    List.Sublist (keysOf (removeF t p)) (keysOf t) := by
  induction t with
  | nil => simp [removeF, keysOf]
  | cons a rest ih =>
      obtain ⟨ap, an⟩ := a
      by_cases hap : ap = p
      · subst hap
        rw [show removeF ((ap, an) :: rest) ap = removeF rest ap from by
          simp [removeF]]
        rw [keysOf_cons]
        exact ih.trans (List.sublist_cons_self _ _)
      · rw [show removeF ((ap, an) :: rest) p = (ap, an) :: removeF rest p from by
          simp [removeF, hap]]
        rw [keysOf_cons, keysOf_cons]
        exact ih.cons₂ _

theorem keysOf_removeF_nodup (t : DirTree) (p : RPath)
    (h : (keysOf t).Nodup) : (keysOf (removeF t p)).Nodup :=
  h.sublist (keysOf_removeF_sublist t p)

theorem copyFile_keys_nodup (opt : Options) (cp : CopyFault) (f : File)
    (rel : RPath) (t : DirTree) (h : (keysOf t).Nodup) :
    (keysOf (copyFile opt cp f rel t).1).Nodup := by
  rcases copyFile_tree_cases opt cp f rel t with hc | hc | ⟨pm, hc⟩ <;> rw [hc]
  · exact h
  · exact keysOf_removeF_nodup t _ h
  · exact keysOf_setF_nodup _ _ _ (keysOf_removeF_nodup t _ h)

theorem copyFile_keys_nodup_eq (opt : Options) {cp : CopyFault} {f : File}
    {rel : RPath} {t t2 : DirTree} {mu : List RPath} {w : Option Err}
    (heq : copyFile opt cp f rel t = (t2, mu, w))
    (h : (keysOf t).Nodup) : (keysOf t2).Nodup := by
  have := copyFile_keys_nodup opt cp f rel t h
  rw [heq] at this
  exact this

theorem fwdStep_keys_nodup (opt : Options) (flt : Faults) (st : St)
    (ent : RPath × Node) (h : (keysOf st.tree).Nodup) :
    (keysOf (fwdStep opt flt st ent).1.tree).Nodup := by
  unfold fwdStep
  dsimp only
  repeat' split
  all_goals (try exact h)
  all_goals (try exact keysOf_setF_nodup _ _ _ h)
  all_goals
    rename_i heq
    exact copyFile_keys_nodup_eq opt heq h

theorem delStep_keys_nodup (opt : Options) (flt : Faults) (srcT : DirTree)
    (st : St) (ent : RPath × Node) (h : (keysOf st.tree).Nodup) :
    (keysOf (delStep opt flt srcT st ent).1.tree).Nodup := by
  rcases delStep_tree_cases opt flt srcT st ent with hc | hc <;> rw [hc]
  · exact h
  · exact keysOf_removeF_nodup _ _ h

theorem fwdFold_keys_nodup (opt : Options) (flt : Faults) (st : St)
    (es : List (RPath × Node)) (h : (keysOf st.tree).Nodup) :
    (keysOf (fwdFold opt flt st es).tree).Nodup := by
  induction es generalizing st with
  | nil => exact h
  | cons e rest ih =>
      rw [fwdFold_cons]
      exact ih _ (fwdStep_keys_nodup opt flt st e h)

theorem delFold_keys_nodup (opt : Options) (flt : Faults) (srcT : DirTree)
    (st : St) (es : List (RPath × Node)) (h : (keysOf st.tree).Nodup) :
    (keysOf (delFold opt flt srcT st es).tree).Nodup := by
  induction es generalizing st with
  | nil => exact h
  | cons e rest ih =>
      rw [delFold_cons]
      exact ih _ (delStep_keys_nodup opt flt srcT st e h)

theorem lookupF_of_mem_nodup (t : DirTree) (q : RPath) (n : Node)
    (hmem : (q, n) ∈ t) (hnd : (keysOf t).Nodup) :
    lookupF t q = some n := by
  induction t with
  | nil => cases hmem
  | cons a rest ih =>
      obtain ⟨ap, an⟩ := a
      rw [keysOf_cons] at hnd
      obtain ⟨hnin, hnd2⟩ := List.nodup_cons.mp hnd
      rcases List.mem_cons.mp hmem with h | h
      · have h1 : ap = q := (congrArg Prod.fst h).symm
        have h2 : an = n := (congrArg Prod.snd h).symm
        subst h1; subst h2
        simp [lookupF]
      · have hq : ap ≠ q := by
          intro he
          exact hnin (he ▸ mem_keysOf rest q n h)
        simp only [lookupF, if_neg hq]
        exact ih h hnd2

/-- Any lookup after the delete pass is the old lookup or gone. -/
theorem delFold_lookup_sub (opt : Options) (flt : Faults) (srcT : DirTree)
    (st : St) (es : List (RPath × Node)) (q : RPath) :
    lookupF (delFold opt flt srcT st es).tree q = lookupF st.tree q ∨
    lookupF (delFold opt flt srcT st es).tree q = none := by
  induction es generalizing st with
  | nil => exact Or.inl rfl
  | cons e rest ih =>
      rw [delFold_cons]
      rcases ih (delStep opt flt srcT st e).1 with h | h
      · rw [h]
        rcases delStep_tree_cases opt flt srcT st e with hc | hc <;> rw [hc]
        · exact Or.inl rfl
        · rw [lookupF_removeF]
          split
          · exact Or.inr rfl
          · exact Or.inl rfl
      · exact Or.inr h

/-- Number of regular-file entries in a walked entry list. -/
def regularFileCount (es : List (RPath × Node)) : Nat :=
  es.countP (fun e => match e.2 with | Node.file f => f.regular | Node.dir => false)

theorem ite_bool_true {α : Sort u} (a b : α) :
    (if true = true then a else b) = a := rfl

theorem ite_bool_false {α : Sort u} (a b : α) :
    (if false = true then a else b) = b := rfl

theorem fileCount_eq_regular (es : List (RPath × Node))
    (h : ∀ rel f, (rel, Node.file f) ∈ es → f.regular = true) :
    regularFileCount es = fileCount es := by
  induction es with
  | nil => rfl
  | cons e rest ih =>
      rcases e with ⟨rel, n⟩
      have ih2 := ih (fun r f hm => h r f (List.mem_cons_of_mem _ hm))
      cases n with
      | dir => simp [regularFileCount, fileCount, List.countP_cons] at ih2 ⊢
               exact ih2
      | file f =>
          have hf := h rel f (List.mem_cons_self _ _)
          simp [regularFileCount, fileCount, List.countP_cons, hf] at ih2 ⊢
          exact ih2

/-- C4 (amended): two fault-free runs with the same options on a static
source tree: under the usual wellformedness of the walked trees
(distinct non-root paths, reserved suffix unused) and with a source
containing only directories and regular files whose paths and
temporary siblings are not blocked by nodes of the opposite kind in the
initial target, the second run reports copied = 0, overwritten = 0,
deleted = 0 and skipped = the regular-file count of the source tree. -/
theorem C4_second_run_idempotent (opt : Options) (flt1 flt2 : Faults)
    (srcT tgt0 : DirTree)
    (hff1 : FaultFree flt1) (hff2 : FaultFree flt2)
    (hsnd : (keysOf srcT).Nodup)
    (htnd : (keysOf tgt0).Nodup)
    (hcl : ∀ p ∈ keysOf srcT, p ≠ [] ∧ ¬ tmpNamed p)
    (hreg : ∀ rel f, (rel, Node.file f) ∈ srcT → f.regular = true)
    (hfnb : ∀ rel f, (rel, Node.file f) ∈ srcT →
       lookupF tgt0 rel ≠ some Node.dir ∧
       lookupF tgt0 (tmpPath rel) ≠ some Node.dir)
    (hdnb : ∀ rel, (rel, Node.dir) ∈ srcT →
       ∀ g, lookupF tgt0 rel ≠ some (Node.file g)) :
    (Sync opt flt2 srcT (Sync opt flt1 srcT tgt0).tree).rep.Copied = 0 ∧
    (Sync opt flt2 srcT (Sync opt flt1 srcT tgt0).tree).rep.Overwritten = 0 ∧
    (Sync opt flt2 srcT (Sync opt flt1 srcT tgt0).tree).rep.Deleted = 0 ∧
    (Sync opt flt2 srcT (Sync opt flt1 srcT tgt0).tree).rep.Skipped =
      regularFileCount srcT := by
  have hA_file : ∀ rel f, (rel, Node.file f) ∈ srcT →
      ∃ g, lookupF (fwdFold opt flt1 ⟨tgt0, {}, []⟩ srcT).tree rel =
        some (Node.file g) ∧ differ (infoF f) (infoF g) = false := by
    intro rel f hm
    exact fwdFold_file opt flt1 ⟨tgt0, {}, []⟩ srcT rel f hff1.1 hsnd hcl hm
      (hreg rel f hm) (hfnb rel f hm).2 (hfnb rel f hm).1
  have hA_dir : ∀ rel, (rel, Node.dir) ∈ srcT →
      lookupF (fwdFold opt flt1 ⟨tgt0, {}, []⟩ srcT).tree rel =
        some Node.dir := by
    intro rel hm
    exact fwdFold_dir opt flt1 ⟨tgt0, {}, []⟩ srcT rel hff1.1 hsnd hcl hm
      (hdnb rel hm)
  have hA_nodup : (keysOf (fwdFold opt flt1 ⟨tgt0, {}, []⟩ srcT).tree).Nodup :=
    fwdFold_keys_nodup opt flt1 ⟨tgt0, {}, []⟩ srcT htnd
  rw [Sync_eq opt flt1 srcT tgt0 hff1.2.2.1 hff1.2.2.2]
  rw [Sync_eq opt flt2 srcT _ hff2.2.2.1 hff2.2.2.2]
  by_cases hdm : opt.DeleteMissing
  all_goals simp only [hdm, ite_bool_true, ite_bool_false, eq_self_iff_true, if_true]
  · -- delete-missing on in both runs
    have ht1_file : ∀ rel f, (rel, Node.file f) ∈ srcT → f.regular = true →
        ∃ g, lookupF (delFold opt flt1 srcT
            (fwdFold opt flt1 ⟨tgt0, {}, []⟩ srcT)
            (fwdFold opt flt1 ⟨tgt0, {}, []⟩ srcT).tree).tree rel =
          some (Node.file g) ∧ differ (infoF f) (infoF g) = false := by
      intro rel f hm _
      rw [delFold_insrc opt flt1 srcT _ _ rel
        (mem_lookupF_ne_none srcT rel (Node.file f) hm)]
      exact hA_file rel f hm
    have ht1_dir : ∀ rel, (rel, Node.dir) ∈ srcT →
        lookupF (delFold opt flt1 srcT
            (fwdFold opt flt1 ⟨tgt0, {}, []⟩ srcT)
            (fwdFold opt flt1 ⟨tgt0, {}, []⟩ srcT).tree).tree rel =
          some Node.dir := by
      intro rel hm
      rw [delFold_insrc opt flt1 srcT _ _ rel
        (mem_lookupF_ne_none srcT rel Node.dir hm)]
      exact hA_dir rel hm
    have ht1_nodup : (keysOf (delFold opt flt1 srcT
        (fwdFold opt flt1 ⟨tgt0, {}, []⟩ srcT)
        (fwdFold opt flt1 ⟨tgt0, {}, []⟩ srcT).tree).tree).Nodup :=
      delFold_keys_nodup opt flt1 srcT _ _ hA_nodup
    have ht1_orphan : ∀ q g, lookupF srcT q = none →
        lookupF (delFold opt flt1 srcT
            (fwdFold opt flt1 ⟨tgt0, {}, []⟩ srcT)
            (fwdFold opt flt1 ⟨tgt0, {}, []⟩ srcT).tree).tree q ≠
          some (Node.file g) := by
      intro q g habs hq
      rcases delFold_lookup_sub opt flt1 srcT
          (fwdFold opt flt1 ⟨tgt0, {}, []⟩ srcT)
          (fwdFold opt flt1 ⟨tgt0, {}, []⟩ srcT).tree q with hs | hs
      · rw [hq] at hs
        have hmemA := lookupF_mem _ _ _ hs.symm
        have := delFold_removed opt flt1 srcT
          (fwdFold opt flt1 ⟨tgt0, {}, []⟩ srcT)
          (fwdFold opt flt1 ⟨tgt0, {}, []⟩ srcT).tree q g hff1.2.1 hmemA habs
        rw [hq] at this
        cases this
      · rw [hq] at hs
        cases hs
    obtain ⟨hBt, hBr⟩ := fwdFold_synced opt flt2
      ⟨(delFold opt flt1 srcT (fwdFold opt flt1 ⟨tgt0, {}, []⟩ srcT)
          (fwdFold opt flt1 ⟨tgt0, {}, []⟩ srcT).tree).tree, {}, []⟩
      srcT hff2.1 ht1_file ht1_dir
    have hkeep : delFold opt flt2 srcT
        (fwdFold opt flt2 ⟨(delFold opt flt1 srcT
            (fwdFold opt flt1 ⟨tgt0, {}, []⟩ srcT)
            (fwdFold opt flt1 ⟨tgt0, {}, []⟩ srcT).tree).tree, {}, []⟩ srcT)
        (fwdFold opt flt2 ⟨(delFold opt flt1 srcT
            (fwdFold opt flt1 ⟨tgt0, {}, []⟩ srcT)
            (fwdFold opt flt1 ⟨tgt0, {}, []⟩ srcT).tree).tree, {}, []⟩ srcT).tree =
        fwdFold opt flt2 ⟨(delFold opt flt1 srcT
            (fwdFold opt flt1 ⟨tgt0, {}, []⟩ srcT)
            (fwdFold opt flt1 ⟨tgt0, {}, []⟩ srcT).tree).tree, {}, []⟩ srcT := by
      apply delFold_keep opt flt2 srcT _ _ hff2.2.1
      intro rel f hm
      rw [hBt] at hm
      have hrel := lookupF_of_mem_nodup _ rel (Node.file f) hm ht1_nodup
      intro habs
      exact ht1_orphan rel f habs hrel
    rw [hkeep, hBr]
    refine ⟨rfl, rfl, rfl, ?_⟩
    rw [fileCount_eq_regular srcT hreg]
    simp
  · -- delete-missing off in both runs
    obtain ⟨hBt, hBr⟩ := fwdFold_synced opt flt2
      ⟨(fwdFold opt flt1 ⟨tgt0, {}, []⟩ srcT).tree, {}, []⟩
      srcT hff2.1 (fun rel f hm _ => hA_file rel f hm) hA_dir
    rw [hBr]
    refine ⟨rfl, rfl, rfl, ?_⟩
    rw [fileCount_eq_regular srcT hreg]
    simp

theorem tmpNamed_getLast (p : RPath) (h : tmpNamed p) :
    ∃ u, p.getLast? = some (u ++ ".tmp~") := by
  obtain ⟨q, u, hq⟩ := h
  subst hq
  exact ⟨u, by simp⟩

theorem not_tmpNamed_short_last (p : RPath) (s : String)
    (hl : p.getLast? = some s) (h : s.length < 5) : ¬ tmpNamed p := by
  intro ht
  obtain ⟨u, hu⟩ := tmpNamed_getLast p ht
  rw [hl] at hu
  have h2 : s = u ++ ".tmp~" := Option.some.inj hu
  have h3 := congrArg String.length h2
  rw [String.length_append] at h3
  have h5 : (".tmp~" : String).length = 5 := rfl
  omega

theorem C4_second_run_idempotent_witness :
    (Sync exOptD quietFaults [(["k"], Node.file exF)]
       (Sync exOptD quietFaults [(["k"], Node.file exF)] []).tree).rep.Copied = 0 ∧
    (Sync exOptD quietFaults [(["k"], Node.file exF)]
       (Sync exOptD quietFaults [(["k"], Node.file exF)] []).tree).rep.Overwritten = 0 ∧
    (Sync exOptD quietFaults [(["k"], Node.file exF)]
       (Sync exOptD quietFaults [(["k"], Node.file exF)] []).tree).rep.Deleted = 0 ∧
    (Sync exOptD quietFaults [(["k"], Node.file exF)]
       (Sync exOptD quietFaults [(["k"], Node.file exF)] []).tree).rep.Skipped =
      regularFileCount [(["k"], Node.file exF)] :=
  C4_second_run_idempotent exOptD quietFaults quietFaults
    [(["k"], Node.file exF)] [] quietFaults_FaultFree quietFaults_FaultFree
    (by decide) (by decide)
    (by
      intro p hp
      simp [keysOf] at hp
      subst hp
      exact ⟨by decide, not_tmpNamed_short_last ["k"] "k" rfl (by decide)⟩)
    (by
      intro rel f hm
      have h2 := List.mem_singleton.mp hm
      have h3 : Node.file f = Node.file exF := congrArg Prod.snd h2
      injection h3 with h4
      rw [h4]
      rfl)
    (by
      intro rel f hm
      exact ⟨by simp [lookupF], by simp [lookupF]⟩)
    (by
      intro rel hm g
      simp [lookupF])

/-- Source tree holding a single non-regular file. -/
def exSrcIrr : DirTree := [(["s"], Node.file exIrr)]

/-- C4 is false as stated: with a non-regular source file, the second
run still reports copied = overwritten = deleted = 0 but counts the
irregular file as skipped, so skipped (= 1) exceeds the regular file
count (= 0). -/
theorem C4_counterexample :
    (Sync exOptD quietFaults exSrcIrr
       (Sync exOptD quietFaults exSrcIrr []).tree).rep.Skipped = 1 ∧
    regularFileCount exSrcIrr = 0 := by
  refine ⟨by decide, by decide⟩
